import Mathlib

/-
Verification of the persistent (path-copying) binary search tree in
`src/persistent_set.h`.

Embedding notes.  Nodes are immutable after construction in the source
(`bNode`/`node` fields are only written by constructors), so the heap of
shared nodes is modelled by an inductive tree in which every value-bearing
node additionally carries a natural-number `id` standing for its address:
two nodes are "the identical node object" (pointer-equal) exactly when
they carry the same id, and allocation is modelled by drawing ids from a
monotone counter `ctr`, so fresh allocations never collide with live ids.
The sentinel anchor (a valueless `bNode` whose `left` is the real root) is
modelled by the handle storing `Option (BTree α)`: `none` is "no anchor
allocated yet", `some root` is "anchor present, real root = root" (with
`root = .leaf` for the empty tree).  A cursor is `Option ℕ`: `some i` is an
iterator whose `_node` is the tree node with id `i`, `none` is the end
cursor (`_node == anchor`).  `std::shared_ptr` reference counting manages
only deallocation, which is invisible to the functional semantics.
-/

set_option linter.unusedSectionVars false

namespace PersistentSet

variable {α : Type} [LinearOrder α]

/-- Model of the node structure: `leaf` is a null child pointer, `node id l v r`
is a `persistent_set<T>::node` at address `id` with children `l`, `r` and
stored value `v`. -/
inductive BTree (α : Type) where
  | leaf : BTree α
  | node (id : ℕ) (left : BTree α) (value : α) (right : BTree α) : BTree α
  deriving DecidableEq

/-- In-order traversal of a tree: the element sequence an iterator walk yields. -/
def BTree.toList : BTree α → List α
  | .leaf => []
  | .node _ l v r => l.toList ++ v :: r.toList

/-- Addresses of all value-bearing nodes of a tree (with multiplicity). -/
def BTree.ids : BTree α → List ℕ
  | .leaf => []
  | .node i l _ r => i :: (l.ids ++ r.ids)

/-- Number of value-bearing nodes of a tree. -/
def BTree.count : BTree α → ℕ
  | .leaf => 0
  | .node _ l _ r => l.count + r.count + 1

/-- Height of a tree (number of nodes on the longest root-to-leaf path). -/
def BTree.height : BTree α → ℕ
  | .leaf => 0
  | .node _ l _ r => max l.height r.height + 1

/-- Model of `bNode::min` started at the node `(id, l, v, _)`: follow `left`
links while a left child exists and return the (id, value) of the node
reached (source lines 357-364; the starting node's right child is never
inspected). -/
def minFrom : ℕ → BTree α → α → ℕ × α
  | id, .leaf, v => (id, v)
  | _, .node i2 l2 v2 _, _ => minFrom i2 l2 v2

/-- Model of `bNode::max` started at the node `(id, _, v, r)`: follow `right`
links while a right child exists (source lines 366-373). -/
def maxFrom : ℕ → α → BTree α → ℕ × α
  | id, v, .leaf => (id, v)
  | _, _, .node i2 _ v2 r2 => maxFrom i2 v2 r2

/-- Model of the descent loop of `persistent_set::find` (source lines 177-190),
run on the real root: left on greater, right on lesser, the node's id on a
hit, `none` (end cursor) on falling off the tree. -/
def BTree.findNode : BTree α → α → Option ℕ
  | .leaf, _ => none
  | .node id l v r, x =>
    if v > x then l.findNode x
    else if v < x then r.findNode x
    else some id

/-- Model of `persistent_set::insert_impl` (source lines 271-290).  `c` is the
allocation counter: every `std::make_shared<node>` draws the next fresh
address.  Returns the rebuilt (path-copied) tree, the address of the node
holding the inserted value, and the advanced counter. -/
def insert_impl : BTree α → α → ℕ → BTree α × ℕ × ℕ
  | .leaf, x, c => (.node c .leaf x .leaf, c, c + 1)
  | .node _ l v r, x, c =>
    if v < x then
      let p := insert_impl r x c
      (.node p.2.2 l v p.1, p.2.1, p.2.2 + 1)
    else
      let p := insert_impl l x c
      (.node p.2.2 p.1 v r, p.2.1, p.2.2 + 1)

/-- Model of `persistent_set::erase_impl` (source lines 292-317).  The erased
position `pos2` is passed as its address `p2` and stored value `p2v` (in the
source it is a live node pointer carrying both).  The `pos == pos2` pointer
comparison becomes an id comparison, faithful because ids of live nodes are
unique.  The `.leaf` case is unreachable for a cursor into the current
version: the source would dereference a null pointer there. -/
def erase_impl : BTree α → ℕ → α → ℕ → BTree α × ℕ
  | .leaf, _, _, c => (.leaf, c)
  | .node id l v r, p2, p2v, c =>
    if id = p2 then
      match r, l with
      | .leaf, _ => (l, c)
      | .node rid rl rv rr, .leaf => (.node rid rl rv rr, c)
      | .node rid rl rv rr, .node _ _ _ _ =>
        let m := minFrom rid rl rv
        let p := erase_impl (.node rid rl rv rr) m.1 m.2 c
        (.node p.2 l m.2 p.1, p.2 + 1)
    else if v < p2v then
      let p := erase_impl r p2 p2v c
      (.node p.2 l v p.1, p.2 + 1)
    else
      let p := erase_impl l p2 p2v c
      (.node p.2 p.1 v r, p.2 + 1)

/-- Model of the parent-free re-descent loop of `bNode::next` (source lines
228-244): descend from the real root towards the stepped node's value `x`,
recording in `acc` the last node where the descent turned left; `acc = none`
is the initial `result = root` (the anchor, i.e. the end position).  A `.leaf`
is never reached when `x` is present in the tree; the source would
dereference a null pointer there. -/
def nextDesc (x : α) : BTree α → Option ℕ → Option ℕ
  | .leaf, acc => acc
  | .node id l v r, acc =>
    if v < x then nextDesc x r acc
    else if v > x then nextDesc x l (some id)
    else acc

/-- Model of the re-descent loop of `bNode::prev` (source lines 252-268),
symmetric to `nextDesc`: the candidate is recorded when the descent turns
right. -/
def prevDesc (x : α) : BTree α → Option ℕ → Option ℕ
  | .leaf, acc => acc
  | .node id l v r, acc =>
    if v < x then prevDesc x r (some id)
    else if v > x then prevDesc x l acc
    else acc

/-- Model of `bNode::next` (source lines 223-245) for a stepped node with value
`v` and right subtree `r`, in the version whose real root is `root`: if the
right child exists its minimum is the successor, otherwise re-descend. -/
def bNodeNext (v : α) (r : BTree α) (root : BTree α) : Option ℕ :=
  match r with
  | .leaf => nextDesc v root none
  | .node rid rl rv _ => some (minFrom rid rl rv).1

/-- Model of `bNode::prev` (source lines 247-269) for a stepped node with value
`v` and left subtree `l`. -/
def bNodePrev (v : α) (l : BTree α) (root : BTree α) : Option ℕ :=
  match l with
  | .leaf => prevDesc v root none
  | .node lid _ lv lr => some (maxFrom lid lv lr).1

/-- Fuel-indexed version of the unbounded `for (;;)` loop in
`persistent_set::find`: `none` means the loop has not returned within `fuel`
iterations. -/
def findFuel (x : α) : ℕ → BTree α → Option (Option ℕ)
  | 0, _ => none
  | _ + 1, .leaf => some none
  | fuel + 1, .node id l v r =>
    if v > x then findFuel x fuel l
    else if v < x then findFuel x fuel r
    else some (some id)

/-- Fuel-indexed version of the unbounded re-descent loop of `bNode::next`. -/
def nextDescFuel (x : α) : ℕ → BTree α → Option ℕ → Option (Option ℕ)
  | 0, _, _ => none
  | _ + 1, .leaf, acc => some acc
  | fuel + 1, .node id l v r, acc =>
    if v < x then nextDescFuel x fuel r acc
    else if v > x then nextDescFuel x fuel l (some id)
    else some acc

/-- Fuel-indexed version of the unbounded re-descent loop of `bNode::prev`. -/
def prevDescFuel (x : α) : ℕ → BTree α → Option ℕ → Option (Option ℕ)
  | 0, _, _ => none
  | _ + 1, .leaf, acc => some acc
  | fuel + 1, .node id l v r, acc =>
    if v < x then prevDescFuel x fuel r (some id)
    else if v > x then prevDescFuel x fuel l acc
    else some acc

/-- Subtree (node-sharing) relation: `IsSubtree s t` holds when the node
object `s` occurs in `t`.  With unique ids this is pointer reachability. -/
def IsSubtree (s : BTree α) : BTree α → Prop
  | .leaf => s = .leaf
  | .node i l v r => s = .node i l v r ∨ IsSubtree s l ∨ IsSubtree s r

instance instDecIsSubtree (s : BTree α) : (t : BTree α) → Decidable (IsSubtree s t)
  | .leaf => decidable_of_iff (s = .leaf) Iff.rfl
  | .node i l v r =>
    haveI := instDecIsSubtree s l
    haveI := instDecIsSubtree s r
    decidable_of_iff (s = .node i l v r ∨ IsSubtree s l ∨ IsSubtree s r) Iff.rfl

/-- Binary-search-tree ordering invariant of §3 of the spec: at every node all
elements of the left subtree compare less than the value and all elements of
the right subtree compare greater. -/
def BST : BTree α → Prop
  | .leaf => True
  | .node _ l v r => (∀ y ∈ l.toList, y < v) ∧ (∀ y ∈ r.toList, v < y) ∧ BST l ∧ BST r

instance instDecBST : (t : BTree α) → Decidable (BST t)
  | .leaf => .isTrue trivial
  | .node _ l v r =>
    haveI := instDecBST l
    haveI := instDecBST r
    decidable_of_iff ((∀ y ∈ l.toList, y < v) ∧ (∀ y ∈ r.toList, v < y) ∧ BST l ∧ BST r) Iff.rfl

/-- Sorted insertion into a list: the specification-side description of "the
old sequence with `x` added in sorted position". -/
def insList (x : α) : List α → List α
  | [] => [x]
  | y :: ys => if y < x then y :: insList x ys else x :: y :: ys

/-- Model of the version handle `persistent_set<T>`: `tree` is the owned
anchor (`none` = null, `some root` = anchor whose left child is `root`),
`size` is the `_size` member, and `ctr` is the allocation counter of the
embedding (the next fresh node address). -/
structure PSet (α : Type) where
  tree : Option (BTree α)
  size : ℕ
  ctr : ℕ
  deriving DecidableEq

/-- Model of the default constructor `persistent_set()` (source lines 160-164). -/
def PSet.init (α : Type) [LinearOrder α] : PSet α := ⟨none, 0, 0⟩

/-- Model of the copy constructor (source lines 325-329): shares the anchor
reference and copies the cardinality, O(1). -/
def PSet.copy (s : PSet α) : PSet α := s

/-- Model of `swap` (source lines 166-170): the two handles exchange anchor
references and cardinalities. -/
def PSet.swapPair (a b : PSet α) : PSet α × PSet α := (b, a)

/-- Model of `empty` (source lines 331-334): tests the cardinality counter. -/
def PSet.isEmpty (s : PSet α) : Bool := s.size == 0

/-- Model of `clear` (source lines 336-340): drops the anchor reference and
resets the counter. -/
def PSet.clear (s : PSet α) : PSet α := ⟨none, 0, s.ctr⟩

/-- Model of `persistent_set::find` (source lines 172-192): end cursor when no
anchor exists, otherwise the descent from the real root. -/
def PSet.find (s : PSet α) (x : α) : Option ℕ :=
  match s.tree with
  | none => none
  | some root => root.findNode x

/-- Model of `persistent_set::insert` (source lines 194-210): lazily
materialize the anchor (`tree_`, lines 319-323), return the found cursor with
`false` on a hit, otherwise path-copy into a fresh anchor, bump the size and
return the new node's cursor with `true`. -/
def PSet.insert (s : PSet α) (x : α) : PSet α × Option ℕ × Bool :=
  match (s.tree.getD .leaf).findNode x with
  | some i => (⟨some (s.tree.getD .leaf), s.size, s.ctr⟩, some i, false)
  | none =>
    (⟨some (insert_impl (s.tree.getD .leaf) x s.ctr).1, s.size + 1,
        (insert_impl (s.tree.getD .leaf) x s.ctr).2.2⟩,
      some (insert_impl (s.tree.getD .leaf) x s.ctr).2.1, true)

/-- Model of `persistent_set::erase` (source lines 212-221): a no-op unless the
anchor and the real root both exist; otherwise path-copy the deletion of the
cursor's node (passed as address `i` and value `v`) into a fresh anchor and
decrement the size.  `_size--` on `size_t` is modelled as truncated
subtraction; the two agree on every reachable state because a nonempty tree
forces `size ≥ 1`. -/
def PSet.erase (s : PSet α) (i : ℕ) (v : α) : PSet α :=
  match s.tree with
  | none => s
  | some .leaf => s
  | some (.node j l w r) =>
    let p := erase_impl (.node j l w r) i v s.ctr
    ⟨some p.1, s.size - 1, p.2⟩

/-- Model of `begin` (source lines 98-104): the end cursor when there is no
anchor or no real root, else the cursor of `tree->min()`, i.e. the leftmost
node under the anchor. -/
def PSet.begin (s : PSet α) : Option ℕ :=
  match s.tree with
  | none => none
  | some .leaf => none
  | some (.node id l v _) => some (minFrom id l v).1

/-- Model of `end` (source lines 107-110): the cursor whose `_node` is the
anchor. -/
def PSet.endCursor (_ : PSet α) : Option ℕ := none

/-- Model of `--end()`: `operator--` calls `prev` on the anchor, and the anchor
has a left child exactly when the set is nonempty, in which case `prev`
returns `left->max()` (source lines 247-250).  In every other case the source
behaviour is undefined (it dereferences the anchor's value or a null
pointer); the model returns the end cursor there. -/
def PSet.predOfEnd (s : PSet α) : Option ℕ :=
  match s.tree with
  | some (.node id _ v r) => some (maxFrom id v r).1
  | _ => none

/-- Element sequence of a handle: the in-order traversal of its real tree. -/
def PSet.toList (s : PSet α) : List α :=
  match s.tree with
  | none => []
  | some root => root.toList

/-- Least element of a tree strictly greater than `x` (specification side:
computed from the in-order traversal, which is ascending for a BST). -/
def succVal (t : BTree α) (x : α) : Option α :=
  (t.toList.filter (fun y => decide (x < y))).head?

/-- Greatest element of a tree strictly less than `x` (specification side). -/
def predVal (t : BTree α) (x : α) : Option α :=
  (t.toList.filter (fun y => decide (y < x))).getLast?

/-- Well-formedness of a handle: the real tree is a BST, node addresses are
pairwise distinct and below the allocation counter, and the stored
cardinality equals the number of value-bearing nodes. -/
def WF (s : PSet α) : Prop :=
  match s.tree with
  | none => s.size = 0
  | some t => BST t ∧ t.ids.Nodup ∧ (∀ j ∈ t.ids, j < s.ctr) ∧ s.size = t.count

instance instDecWF : (s : PSet α) → Decidable (WF s)
  | ⟨none, sz, _⟩ => decidable_of_iff (sz = 0) Iff.rfl
  | ⟨some t, sz, c⟩ =>
    decidable_of_iff (BST t ∧ t.ids.Nodup ∧ (∀ j ∈ t.ids, j < c) ∧ sz = t.count) Iff.rfl

/-- Precondition of `erase`: either the handle is empty (the call is a no-op
that never inspects the cursor) or the cursor, given by address and value,
identifies a node of the handle's current tree.  A cursor not derived from
the current version is undefined behaviour per §4.1 of the spec. -/
def EraseOK (s : PSet α) (i : ℕ) (v : α) : Prop :=
  match s.tree with
  | none => True
  | some .leaf => True
  | some (.node j l w r) => ∃ dl dr, IsSubtree (.node i dl v dr) (.node j l w r)

/-- Handle states reachable by sequences of the public operations: default
construction, insert, erase (with a cursor of the current version), clear,
copy construction and swap. -/
inductive Reachable : PSet α → Prop where
  | init : Reachable (PSet.init α)
  | ins (x : α) {s : PSet α} : Reachable s → Reachable (s.insert x).1
  | del (i : ℕ) (v : α) {s : PSet α} : Reachable s → EraseOK s i v → Reachable (s.erase i v)
  | clr {s : PSet α} : Reachable s → Reachable s.clear
  | copy {s : PSet α} : Reachable s → Reachable s.copy
  | swapFst {s t : PSet α} : Reachable s → Reachable t → Reachable (PSet.swapPair s t).1
  | swapSnd {s t : PSet α} : Reachable s → Reachable t → Reachable (PSet.swapPair s t).2

/-! Basic lemmas about the tree model. -/

@[simp] theorem toList_leaf : (BTree.leaf : BTree α).toList = [] := rfl

@[simp] theorem toList_node (i : ℕ) (l : BTree α) (v : α) (r : BTree α) :
    (BTree.node i l v r).toList = l.toList ++ v :: r.toList := rfl

@[simp] theorem ids_leaf : (BTree.leaf : BTree α).ids = [] := rfl

@[simp] theorem ids_node (i : ℕ) (l : BTree α) (v : α) (r : BTree α) :
    (BTree.node i l v r).ids = i :: (l.ids ++ r.ids) := rfl

@[simp] theorem count_leaf : (BTree.leaf : BTree α).count = 0 := rfl

@[simp] theorem count_node (i : ℕ) (l : BTree α) (v : α) (r : BTree α) :
    (BTree.node i l v r).count = l.count + r.count + 1 := rfl

theorem count_eq_length_toList (t : BTree α) : t.count = t.toList.length := by
  induction t with
  | leaf => rfl
  | node i l v r ihl ihr => simp [ihl, ihr]; omega

@[simp] theorem isSubtree_leaf_iff (s : BTree α) : IsSubtree s .leaf ↔ s = .leaf :=
  Iff.rfl

@[simp] theorem isSubtree_node_iff (s : BTree α) (i : ℕ) (l : BTree α) (v : α) (r : BTree α) :
    IsSubtree s (.node i l v r) ↔ s = .node i l v r ∨ IsSubtree s l ∨ IsSubtree s r :=
  Iff.rfl

theorem isSubtree_refl (t : BTree α) : IsSubtree t t := by
  cases t with
  | leaf => simp
  | node i l v r => simp

theorem isSubtree_left {s l : BTree α} (i : ℕ) (v : α) (r : BTree α) (h : IsSubtree s l) :
    IsSubtree s (.node i l v r) := Or.inr (Or.inl h)

theorem isSubtree_right {s r : BTree α} (i : ℕ) (l : BTree α) (v : α) (h : IsSubtree s r) :
    IsSubtree s (.node i l v r) := Or.inr (Or.inr h)

theorem isSubtree_trans {a b c : BTree α} (hab : IsSubtree a b) (hbc : IsSubtree b c) :
    IsSubtree a c := by
  induction c with
  | leaf => rw [isSubtree_leaf_iff] at hbc; subst hbc; exact hab
  | node i l v r ihl ihr =>
    rcases hbc with h | h | h
    · subst h; exact hab
    · exact isSubtree_left _ _ _ (ihl h)
    · exact isSubtree_right _ _ _ (ihr h)

theorem isSubtree_toList_decomp {s t : BTree α} (h : IsSubtree s t) :
    ∃ A B, t.toList = A ++ s.toList ++ B := by
  induction t with
  | leaf => rw [isSubtree_leaf_iff] at h; exact ⟨[], [], by simp [h]⟩
  | node i l v r ihl ihr =>
    rcases h with h | h | h
    · exact ⟨[], [], by simp [h]⟩
    · obtain ⟨A, B, hAB⟩ := ihl h
      exact ⟨A, B ++ v :: r.toList, by simp [hAB]⟩
    · obtain ⟨A, B, hAB⟩ := ihr h
      exact ⟨l.toList ++ v :: A, B, by simp [hAB]⟩

theorem isSubtree_ids_subset {s t : BTree α} (h : IsSubtree s t) : s.ids ⊆ t.ids := by
  induction t with
  | leaf => rw [isSubtree_leaf_iff] at h; subst h; simp
  | node i l v r ihl ihr =>
    rcases h with h | h | h
    · subst h; exact fun j hj => hj
    · exact fun j hj => by simpa using Or.inr (Or.inl (ihl h hj))
    · exact fun j hj => by simpa using Or.inr (Or.inr (ihr h hj))

theorem mem_toList_of_isSubtree {i : ℕ} {l r t : BTree α} {v : α}
    (h : IsSubtree (.node i l v r) t) : v ∈ t.toList := by
  obtain ⟨A, B, hAB⟩ := isSubtree_toList_decomp h
  simp [hAB]

theorem id_mem_ids_of_isSubtree {i : ℕ} {l r t : BTree α} {v : α}
    (h : IsSubtree (.node i l v r) t) : i ∈ t.ids :=
  isSubtree_ids_subset h (by simp)

/-! BST ordering versus sortedness of the in-order traversal. -/

@[simp] theorem bst_leaf : BST (.leaf : BTree α) := trivial

theorem bst_node_iff (i : ℕ) (l : BTree α) (v : α) (r : BTree α) :
    BST (.node i l v r) ↔
      (∀ y ∈ l.toList, y < v) ∧ (∀ y ∈ r.toList, v < y) ∧ BST l ∧ BST r :=
  Iff.rfl

theorem sorted_append_iff (l₁ l₂ : List α) :
    (l₁ ++ l₂).Sorted (· < ·) ↔
      l₁.Sorted (· < ·) ∧ l₂.Sorted (· < ·) ∧ ∀ a ∈ l₁, ∀ b ∈ l₂, a < b :=
  List.pairwise_append

theorem bst_iff_sorted (t : BTree α) : BST t ↔ t.toList.Sorted (· < ·) := by
  induction t with
  | leaf => simp
  | node i l v r ihl ihr =>
    rw [bst_node_iff, toList_node]
    rw [sorted_append_iff]
    rw [List.sorted_cons]
    constructor
    · rintro ⟨hl, hr, hbl, hbr⟩
      refine ⟨ihl.mp hbl, ⟨hr, ihr.mp hbr⟩, ?_⟩
      intro a ha b hb
      rcases List.mem_cons.mp hb with rfl | hb
      · exact hl a ha
      · exact lt_trans (hl a ha) (hr b hb)
    · rintro ⟨hsl, ⟨hr, hsr⟩, hcross⟩
      refine ⟨fun a ha => hcross a ha v (by simp), hr, ihl.mpr hsl, ihr.mpr hsr⟩

theorem toList_nodup_of_bst {t : BTree α} (h : BST t) : t.toList.Nodup :=
  ((bst_iff_sorted t).mp h).nodup

/-! Correctness of the `find` descent. -/

theorem findNode_some {t : BTree α} {x : α} {i : ℕ} (h : t.findNode x = some i) :
    ∃ l r, IsSubtree (.node i l x r) t := by
  induction t with
  | leaf => simp [BTree.findNode] at h
  | node j l v r ihl ihr =>
    rw [BTree.findNode] at h
    by_cases h1 : v > x
    · rw [if_pos h1] at h
      obtain ⟨l2, r2, hs⟩ := ihl h
      exact ⟨l2, r2, isSubtree_left _ _ _ hs⟩
    · rw [if_neg h1] at h
      by_cases h2 : v < x
      · rw [if_pos h2] at h
        obtain ⟨l2, r2, hs⟩ := ihr h
        exact ⟨l2, r2, isSubtree_right _ _ _ hs⟩
      · rw [if_neg h2] at h
        have hvx : v = x := le_antisymm (not_lt.mp h1) (not_lt.mp h2)
        obtain rfl : j = i := by simpa using h
        exact ⟨l, r, by rw [← hvx]; exact isSubtree_refl _⟩

theorem findNode_isSome_of_mem {t : BTree α} (hbst : BST t) {x : α} (hx : x ∈ t.toList) :
    ∃ i, t.findNode x = some i := by
  induction t with
  | leaf => simp at hx
  | node j l v r ihl ihr =>
    obtain ⟨hl, hr, hbl, hbr⟩ := hbst
    rw [toList_node] at hx
    rw [BTree.findNode]
    rcases List.mem_append.mp hx with hx | hx
    · have : v > x := hl x hx
      rw [if_pos this]
      exact ihl hbl hx
    · rcases List.mem_cons.mp hx with rfl | hx
      · simp
      · have h2 : v < x := hr x hx
        rw [if_neg (not_lt.mpr h2.le), if_pos h2]
        exact ihr hbr hx

theorem findNode_eq_none_iff {t : BTree α} (hbst : BST t) (x : α) :
    t.findNode x = none ↔ x ∉ t.toList := by
  constructor
  · intro h hx
    obtain ⟨i, hi⟩ := findNode_isSome_of_mem hbst hx
    rw [h] at hi; exact Option.noConfusion hi
  · intro hx
    cases hfind : t.findNode x with
    | none => rfl
    | some i =>
      obtain ⟨l, r, hs⟩ := findNode_some hfind
      exact absurd (mem_toList_of_isSubtree hs) hx

/-! Uniqueness of nodes by value (inside one BST version) and by id
(among distinctly allocated nodes). -/

theorem isSubtree_node_value_unique {t : BTree α} (hbst : BST t) {x : α}
    {i1 i2 : ℕ} {l1 r1 l2 r2 : BTree α}
    (h1 : IsSubtree (.node i1 l1 x r1) t) (h2 : IsSubtree (.node i2 l2 x r2) t) :
    i1 = i2 ∧ l1 = l2 ∧ r1 = r2 := by
  induction t with
  | leaf => simp at h1
  | node j l v r ihl ihr =>
    obtain ⟨hl, hr, hbl, hbr⟩ := hbst
    rcases h1 with h1 | h1 | h1 <;> rcases h2 with h2 | h2 | h2
    · obtain ⟨rfl, rfl, rfl, rfl⟩ := BTree.node.inj h1
      obtain ⟨rfl, rfl, -, rfl⟩ := BTree.node.inj h2
      exact ⟨rfl, rfl, rfl⟩
    · obtain ⟨-, -, rfl, -⟩ := BTree.node.inj h1
      exact absurd (hl x (mem_toList_of_isSubtree h2)) (lt_irrefl x)
    · obtain ⟨-, -, rfl, -⟩ := BTree.node.inj h1
      exact absurd (hr x (mem_toList_of_isSubtree h2)) (lt_irrefl x)
    · obtain ⟨-, -, rfl, -⟩ := BTree.node.inj h2
      exact absurd (hl x (mem_toList_of_isSubtree h1)) (lt_irrefl x)
    · exact ihl hbl h1 h2
    · exact absurd (hr x (mem_toList_of_isSubtree h2))
        (not_lt.mpr (hl x (mem_toList_of_isSubtree h1)).le)
    · obtain ⟨-, -, rfl, -⟩ := BTree.node.inj h2
      exact absurd (hr x (mem_toList_of_isSubtree h1)) (lt_irrefl x)
    · exact absurd (hr x (mem_toList_of_isSubtree h1))
        (not_lt.mpr (hl x (mem_toList_of_isSubtree h2)).le)
    · exact ihr hbr h1 h2

theorem isSubtree_node_id_unique {t : BTree α} (hids : t.ids.Nodup) {i : ℕ}
    {v1 v2 : α} {l1 r1 l2 r2 : BTree α}
    (h1 : IsSubtree (.node i l1 v1 r1) t) (h2 : IsSubtree (.node i l2 v2 r2) t) :
    l1 = l2 ∧ v1 = v2 ∧ r1 = r2 := by
  induction t with
  | leaf => simp at h1
  | node j l v r ihl ihr =>
    rw [ids_node, List.nodup_cons, List.nodup_append] at hids
    obtain ⟨hj, hnl, hnr, hdisj⟩ := hids
    rcases h1 with h1 | h1 | h1 <;> rcases h2 with h2 | h2 | h2
    · obtain ⟨rfl, rfl, rfl, rfl⟩ := BTree.node.inj h1
      obtain ⟨-, rfl, rfl, rfl⟩ := BTree.node.inj h2
      exact ⟨rfl, rfl, rfl⟩
    · obtain ⟨rfl, -, -, -⟩ := BTree.node.inj h1
      exact absurd (List.mem_append.mpr (Or.inl (id_mem_ids_of_isSubtree h2))) hj
    · obtain ⟨rfl, -, -, -⟩ := BTree.node.inj h1
      exact absurd (List.mem_append.mpr (Or.inr (id_mem_ids_of_isSubtree h2))) hj
    · obtain ⟨rfl, -, -, -⟩ := BTree.node.inj h2
      exact absurd (List.mem_append.mpr (Or.inl (id_mem_ids_of_isSubtree h1))) hj
    · exact ihl hnl h1 h2
    · exact absurd (id_mem_ids_of_isSubtree h2)
        (hdisj (id_mem_ids_of_isSubtree h1))
    · obtain ⟨rfl, -, -, -⟩ := BTree.node.inj h2
      exact absurd (List.mem_append.mpr (Or.inr (id_mem_ids_of_isSubtree h1))) hj
    · exact absurd (id_mem_ids_of_isSubtree h1)
        (hdisj (id_mem_ids_of_isSubtree h2))
    · exact ihr hnr h1 h2

/-! Sorted insertion into lists. -/

theorem insList_cons (x y : α) (ys : List α) :
    insList x (y :: ys) = if y < x then y :: insList x ys else x :: y :: ys := rfl

theorem mem_insList (x : α) (l : List α) (z : α) :
    z ∈ insList x l ↔ z = x ∨ z ∈ l := by
  induction l with
  | nil => simp [insList]
  | cons y ys ih =>
    rw [insList_cons]
    split
    · simp only [List.mem_cons, ih]; tauto
    · simp only [List.mem_cons]

theorem length_insList (x : α) (l : List α) : (insList x l).length = l.length + 1 := by
  induction l with
  | nil => rfl
  | cons y ys ih =>
    rw [insList_cons]
    split <;> simp [ih]

theorem insList_append_cons_lt {x v : α} {a : List α} (ha : ∀ y ∈ a, y < x) (hv : v < x)
    (b : List α) : insList x (a ++ v :: b) = a ++ v :: insList x b := by
  induction a with
  | nil => simp [insList_cons, if_pos hv]
  | cons y ys ih =>
    have hy : y < x := ha y (by simp)
    simp only [List.cons_append, insList_cons, if_pos hy]
    rw [ih (fun z hz => ha z (by simp [hz]))]

theorem insList_append_ge {x v : α} (h : ¬ v < x) (a b : List α) :
    insList x (a ++ v :: b) = insList x a ++ v :: b := by
  induction a with
  | nil => simp [insList_cons, if_neg h, insList]
  | cons y ys ih =>
    simp only [List.cons_append, insList_cons]
    split
    · rw [ih]; rfl
    · rfl

theorem sorted_insList {l : List α} (hs : l.Sorted (· < ·)) {x : α} (hx : x ∉ l) :
    (insList x l).Sorted (· < ·) := by
  induction l with
  | nil => simp [insList]
  | cons y ys ih =>
    rw [List.sorted_cons] at hs
    obtain ⟨hy, hys⟩ := hs
    rw [insList_cons]
    by_cases hlt : y < x
    · rw [if_pos hlt, List.sorted_cons]
      refine ⟨fun b hb => ?_, ih hys (fun hm => hx (by simp [hm]))⟩
      rcases (mem_insList x ys b).mp hb with rfl | hb
      · exact hlt
      · exact hy b hb
    · rw [if_neg hlt, List.sorted_cons]
      have hxy : x < y := lt_of_le_of_ne (not_lt.mp hlt) (fun he => hx (by simp [he]))
      refine ⟨fun b hb => ?_, List.sorted_cons.mpr ⟨hy, hys⟩⟩
      rcases List.mem_cons.mp hb with rfl | hb
      · exact hxy
      · exact lt_trans hxy (hy b hb)

/-! Equations and correctness of path-copying insertion. -/

theorem insert_impl_leaf (x : α) (c : ℕ) :
    insert_impl (.leaf : BTree α) x c = (.node c .leaf x .leaf, c, c + 1) := rfl

theorem insert_impl_node_lt {v x : α} (h : v < x) (i : ℕ) (l r : BTree α) (c : ℕ) :
    insert_impl (.node i l v r) x c =
      (.node (insert_impl r x c).2.2 l v (insert_impl r x c).1,
        (insert_impl r x c).2.1, (insert_impl r x c).2.2 + 1) := by
  simp only [insert_impl, if_pos h]

theorem insert_impl_node_not_lt {v x : α} (h : ¬ v < x) (i : ℕ) (l r : BTree α) (c : ℕ) :
    insert_impl (.node i l v r) x c =
      (.node (insert_impl l x c).2.2 (insert_impl l x c).1 v r,
        (insert_impl l x c).2.1, (insert_impl l x c).2.2 + 1) := by
  simp only [insert_impl, if_neg h]

theorem insert_impl_toList {t : BTree α} (hbst : BST t) {x : α}
    (hf : t.findNode x = none) (c : ℕ) :
    (insert_impl t x c).1.toList = insList x t.toList := by
  induction t generalizing c with
  | leaf => simp [insert_impl, insList]
  | node i l v r ihl ihr =>
    rw [BTree.findNode] at hf
    obtain ⟨hl, hr, hbl, hbr⟩ := hbst
    by_cases hvx : v < x
    · rw [if_neg (not_lt.mpr hvx.le), if_pos hvx] at hf
      rw [insert_impl_node_lt hvx, toList_node, toList_node, ihr hbr hf c]
      exact (insList_append_cons_lt (fun y hy => lt_trans (hl y hy) hvx) hvx _).symm
    · by_cases hgt : v > x
      · rw [if_pos hgt] at hf
        rw [insert_impl_node_not_lt hvx, toList_node, toList_node, ihl hbl hf c]
        exact (insList_append_ge hvx _ _).symm
      · rw [if_neg hgt, if_neg hvx] at hf
        exact Option.noConfusion hf

theorem insert_impl_bst {t : BTree α} (hbst : BST t) {x : α}
    (hf : t.findNode x = none) (c : ℕ) : BST (insert_impl t x c).1 := by
  rw [bst_iff_sorted, insert_impl_toList hbst hf]
  exact sorted_insList ((bst_iff_sorted t).mp hbst) ((findNode_eq_none_iff hbst x).mp hf)

theorem insert_impl_new_node (t : BTree α) (x : α) (c : ℕ) :
    IsSubtree (.node (insert_impl t x c).2.1 .leaf x .leaf) (insert_impl t x c).1 := by
  induction t generalizing c with
  | leaf => exact isSubtree_refl _
  | node i l v r ihl ihr =>
    by_cases hvx : v < x
    · rw [insert_impl_node_lt hvx]
      exact isSubtree_right _ _ _ (ihr c)
    · rw [insert_impl_node_not_lt hvx]
      exact isSubtree_left _ _ _ (ihl c)

theorem insert_impl_ctr_lt (t : BTree α) (x : α) (c : ℕ) : c < (insert_impl t x c).2.2 := by
  induction t generalizing c with
  | leaf => simp [insert_impl]
  | node i l v r ihl ihr =>
    by_cases hvx : v < x
    · rw [insert_impl_node_lt hvx]
      exact lt_trans (ihr c) (Nat.lt_succ_self _)
    · rw [insert_impl_node_not_lt hvx]
      exact lt_trans (ihl c) (Nat.lt_succ_self _)

theorem insert_impl_res_lb (t : BTree α) (x : α) (c : ℕ) : c ≤ (insert_impl t x c).2.1 := by
  induction t generalizing c with
  | leaf => simp [insert_impl]
  | node i l v r ihl ihr =>
    by_cases hvx : v < x
    · rw [insert_impl_node_lt hvx]; exact ihr c
    · rw [insert_impl_node_not_lt hvx]; exact ihl c

theorem insert_impl_ids_cases (t : BTree α) (x : α) (c : ℕ) :
    ∀ j ∈ (insert_impl t x c).1.ids, j ∈ t.ids ∨ (c ≤ j ∧ j < (insert_impl t x c).2.2) := by
  induction t generalizing c with
  | leaf =>
    intro j hj
    simp [insert_impl] at hj ⊢
    omega
  | node i l v r ihl ihr =>
    intro j hj
    by_cases hvx : v < x
    · rw [insert_impl_node_lt hvx] at hj ⊢
      rcases List.mem_cons.mp hj with rfl | hj
      · exact Or.inr ⟨(insert_impl_ctr_lt r x c).le, Nat.lt_succ_self _⟩
      · rcases List.mem_append.mp hj with hj | hj
        · exact Or.inl (by simp [hj])
        · rcases ihr c j hj with hj | ⟨h1, h2⟩
          · exact Or.inl (by simp [hj])
          · exact Or.inr ⟨h1, lt_trans h2 (Nat.lt_succ_self _)⟩
    · rw [insert_impl_node_not_lt hvx] at hj ⊢
      rcases List.mem_cons.mp hj with rfl | hj
      · exact Or.inr ⟨(insert_impl_ctr_lt l x c).le, Nat.lt_succ_self _⟩
      · rcases List.mem_append.mp hj with hj | hj
        · rcases ihl c j hj with hj | ⟨h1, h2⟩
          · exact Or.inl (by simp [hj])
          · exact Or.inr ⟨h1, lt_trans h2 (Nat.lt_succ_self _)⟩
        · exact Or.inl (by simp [hj])

theorem insert_impl_ids_bound {t : BTree α} {c : ℕ} (hb : ∀ j ∈ t.ids, j < c) (x : α) :
    ∀ j ∈ (insert_impl t x c).1.ids, j < (insert_impl t x c).2.2 := by
  intro j hj
  rcases insert_impl_ids_cases t x c j hj with hj | ⟨-, h2⟩
  · exact lt_trans (hb j hj) (insert_impl_ctr_lt t x c)
  · exact h2

theorem insert_impl_res_mem (t : BTree α) (x : α) (c : ℕ) :
    (insert_impl t x c).2.1 ∈ (insert_impl t x c).1.ids :=
  id_mem_ids_of_isSubtree (insert_impl_new_node t x c)

theorem insert_impl_ids_nodup (t : BTree α) (x : α) :
    ∀ c, (∀ j ∈ t.ids, j < c) → t.ids.Nodup → (insert_impl t x c).1.ids.Nodup := by
  induction t with
  | leaf => intro c _ _; simp [insert_impl]
  | node i l v r ihl ihr =>
    intro c hb hnd
    rw [ids_node, List.nodup_cons, List.nodup_append] at hnd
    obtain ⟨hi, hnl, hnr, hdisj⟩ := hnd
    have hbl : ∀ j ∈ l.ids, j < c := fun j hj => hb j (by simp [hj])
    have hbr : ∀ j ∈ r.ids, j < c := fun j hj => hb j (by simp [hj])
    by_cases hvx : v < x
    · rw [insert_impl_node_lt hvx, ids_node, List.nodup_cons, List.nodup_append]
      refine ⟨?_, hnl, ihr c hbr hnr, ?_⟩
      · intro hmem
        rcases List.mem_append.mp hmem with h | h
        · exact absurd (lt_trans (hbl _ h) (insert_impl_ctr_lt r x c)) (lt_irrefl _)
        · exact absurd (insert_impl_ids_bound hbr x _ h) (lt_irrefl _)
      · intro j hjl hjr
        rcases insert_impl_ids_cases r x c j hjr with h | ⟨h1, -⟩
        · exact hdisj hjl h
        · exact absurd (hbl j hjl) (not_lt.mpr h1)
    · rw [insert_impl_node_not_lt hvx, ids_node, List.nodup_cons, List.nodup_append]
      refine ⟨?_, ihl c hbl hnl, hnr, ?_⟩
      · intro hmem
        rcases List.mem_append.mp hmem with h | h
        · exact absurd (insert_impl_ids_bound hbl x _ h) (lt_irrefl _)
        · exact absurd (lt_trans (hbr _ h) (insert_impl_ctr_lt l x c)) (lt_irrefl _)
      · intro j hjl hjr
        rcases insert_impl_ids_cases l x c j hjl with h | ⟨h1, -⟩
        · exact hdisj h hjr
        · exact absurd (hbr j hjr) (not_lt.mpr h1)

theorem insert_impl_ctr_le (t : BTree α) (x : α) (c : ℕ) :
    (insert_impl t x c).2.2 ≤ c + t.height + 1 := by
  induction t generalizing c with
  | leaf => simp [insert_impl]
  | node i l v r ihl ihr =>
    have hlh : l.height ≤ max l.height r.height := le_max_left _ _
    have hrh : r.height ≤ max l.height r.height := le_max_right _ _
    have hheight : (BTree.node i l v r).height = max l.height r.height + 1 := rfl
    by_cases hvx : v < x
    · rw [insert_impl_node_lt hvx]
      have := ihr c
      simp only [hheight]
      omega
    · rw [insert_impl_node_not_lt hvx]
      have := ihl c
      simp only [hheight]
      omega

theorem insert_impl_share (t : BTree α) (x : α) :
    ∀ c, (∀ j ∈ t.ids, j < c) → ∀ j (l2 : BTree α) (v2 : α) (r2 : BTree α),
      IsSubtree (.node j l2 v2 r2) (insert_impl t x c).1 →
      (c ≤ j → (insert_impl t x c).2.1 ∈ (BTree.node j l2 v2 r2).ids) ∧
      (j < c → IsSubtree (.node j l2 v2 r2) t) := by
  induction t with
  | leaf =>
    intro c hb j l2 v2 r2 hsub
    rw [insert_impl_leaf] at hsub ⊢
    rcases hsub with h | h | h
    · obtain ⟨rfl, rfl, rfl, rfl⟩ := BTree.node.inj h
      exact ⟨fun _ => by simp, fun hlt => absurd hlt (lt_irrefl _)⟩
    · simp at h
    · simp at h
  | node i l v r ihl ihr =>
    intro c hb j l2 v2 r2 hsub
    by_cases hvx : v < x
    · rw [insert_impl_node_lt hvx] at hsub ⊢
      rcases hsub with h | h | h
      · obtain ⟨rfl, rfl, rfl, rfl⟩ := BTree.node.inj h
        refine ⟨fun _ => ?_, fun hlt => ?_⟩
        · exact List.mem_cons.mpr
            (Or.inr (List.mem_append.mpr (Or.inr (insert_impl_res_mem r x c))))
        · exact absurd (lt_trans (insert_impl_ctr_lt r x c) hlt) (lt_irrefl c)
      · refine ⟨fun hcj => ?_, fun _ => isSubtree_left _ _ _ h⟩
        have hmem : j ∈ l.ids := id_mem_ids_of_isSubtree h
        exact absurd (hb j (by simp [hmem])) (not_lt.mpr hcj)
      · have hIH := ihr c (fun j hj => hb j (by simp [hj])) j l2 v2 r2 h
        exact ⟨hIH.1, fun hlt => isSubtree_right _ _ _ (hIH.2 hlt)⟩
    · rw [insert_impl_node_not_lt hvx] at hsub ⊢
      rcases hsub with h | h | h
      · obtain ⟨rfl, rfl, rfl, rfl⟩ := BTree.node.inj h
        refine ⟨fun _ => ?_, fun hlt => ?_⟩
        · exact List.mem_cons.mpr
            (Or.inr (List.mem_append.mpr (Or.inl (insert_impl_res_mem l x c))))
        · exact absurd (lt_trans (insert_impl_ctr_lt l x c) hlt) (lt_irrefl c)
      · have hIH := ihl c (fun j hj => hb j (by simp [hj])) j l2 v2 r2 h
        exact ⟨hIH.1, fun hlt => isSubtree_left _ _ _ (hIH.2 hlt)⟩
      · refine ⟨fun hcj => ?_, fun _ => isSubtree_right _ _ _ h⟩
        have hmem : j ∈ r.ids := id_mem_ids_of_isSubtree h
        exact absurd (hb j (by simp [hmem])) (not_lt.mpr hcj)

/-! Minimum and maximum node of a subtree. -/

theorem minFrom_isSubtree (i : ℕ) (l : BTree α) (v : α) (r : BTree α) :
    ∃ rr, IsSubtree (.node (minFrom i l v).1 .leaf (minFrom i l v).2 rr) (.node i l v r) := by
  induction l generalizing i v r with
  | leaf => exact ⟨r, isSubtree_refl _⟩
  | node i2 l2 v2 r2 ih =>
    obtain ⟨rr, hrr⟩ := ih i2 v2 r2
    exact ⟨rr, isSubtree_left _ _ _ hrr⟩

theorem minFrom_head (i : ℕ) (l : BTree α) (v : α) (r : BTree α) :
    ((BTree.node i l v r).toList).head? = some (minFrom i l v).2 := by
  induction l generalizing i v r with
  | leaf => rfl
  | node i2 l2 v2 r2 ih =>
    have h := ih i2 v2 (.node 0 r2 v r)
    simp only [toList_node, List.append_assoc, List.cons_append, minFrom] at h ⊢
    exact h

theorem maxFrom_isSubtree (i : ℕ) (l : BTree α) (v : α) (r : BTree α) :
    ∃ ll, IsSubtree (.node (maxFrom i v r).1 ll (maxFrom i v r).2 .leaf) (.node i l v r) := by
  induction r generalizing i v l with
  | leaf => exact ⟨l, isSubtree_refl _⟩
  | node i2 l2 v2 r2 ihl2 ihr2 =>
    obtain ⟨ll, hll⟩ := ihr2 i2 l2 v2
    exact ⟨ll, isSubtree_right _ _ _ hll⟩

theorem toList_node_ne_nil (i : ℕ) (l : BTree α) (v : α) (r : BTree α) :
    (BTree.node i l v r).toList ≠ [] := by
  simp

theorem maxFrom_getLast (i : ℕ) (l : BTree α) (v : α) (r : BTree α) :
    ((BTree.node i l v r).toList).getLast? = some (maxFrom i v r).2 := by
  induction r generalizing i v l with
  | leaf =>
    rw [toList_node, toList_leaf, List.getLast?_concat]
    rfl
  | node i2 l2 v2 r2 ihl2 ihr2 =>
    have h := ihr2 i2 (.node 0 l v l2) v2
    simp only [toList_node, List.append_assoc, List.cons_append, maxFrom] at h ⊢
    exact h

/-! Equations and correctness of path-copying deletion. -/

theorem erase_impl_leaf (p2 : ℕ) (p2v : α) (c : ℕ) :
    erase_impl (.leaf : BTree α) p2 p2v c = (.leaf, c) := rfl

theorem erase_impl_node_lt {j p2 : ℕ} {v p2v : α} (hne : j ≠ p2) (hlt : v < p2v)
    (l r : BTree α) (c : ℕ) :
    erase_impl (.node j l v r) p2 p2v c =
      (.node (erase_impl r p2 p2v c).2 l v (erase_impl r p2 p2v c).1,
        (erase_impl r p2 p2v c).2 + 1) := by
  cases r <;> cases l <;> simp only [erase_impl, if_neg hne, if_pos hlt]

theorem erase_impl_node_not_lt {j p2 : ℕ} {v p2v : α} (hne : j ≠ p2) (hge : ¬ v < p2v)
    (l r : BTree α) (c : ℕ) :
    erase_impl (.node j l v r) p2 p2v c =
      (.node (erase_impl l p2 p2v c).2 (erase_impl l p2 p2v c).1 v r,
        (erase_impl l p2 p2v c).2 + 1) := by
  cases r <;> cases l <;> simp only [erase_impl, if_neg hne, if_neg hge]

theorem erase_impl_hit_rleaf (i : ℕ) (l : BTree α) (v p2v : α) (c : ℕ) :
    erase_impl (.node i l v .leaf) i p2v c = (l, c) := by
  simp [erase_impl]

theorem erase_impl_hit_lleaf (i rid : ℕ) (rl rr : BTree α) (v rv p2v : α) (c : ℕ) :
    erase_impl (.node i .leaf v (.node rid rl rv rr)) i p2v c = (.node rid rl rv rr, c) := by
  simp [erase_impl]

theorem erase_impl_hit_both (i li rid : ℕ) (ll lr rl rr : BTree α) (v lv rv p2v : α) (c : ℕ) :
    erase_impl (.node i (.node li ll lv lr) v (.node rid rl rv rr)) i p2v c =
      (.node (erase_impl (.node rid rl rv rr) (minFrom rid rl rv).1 (minFrom rid rl rv).2 c).2
        (.node li ll lv lr) (minFrom rid rl rv).2
        (erase_impl (.node rid rl rv rr) (minFrom rid rl rv).1 (minFrom rid rl rv).2 c).1,
       (erase_impl (.node rid rl rv rr) (minFrom rid rl rv).1 (minFrom rid rl rv).2 c).2 + 1) := by
  simp [erase_impl]

theorem erase_middle {v : α} {A : List α} (hA : v ∉ A) (B : List α) :
    (A ++ v :: B).erase v = A ++ B := by
  rw [List.erase_append_right _ hA, List.erase_cons_head]

theorem erase_impl_toList : ∀ t : BTree α, BST t → t.ids.Nodup →
    ∀ (i : ℕ) (l : BTree α) (v : α) (r : BTree α) (c : ℕ),
      IsSubtree (.node i l v r) t →
      (erase_impl t i v c).1.toList = t.toList.erase v := by
  intro t
  induction t with
  | leaf => intro _ _ i l v r c hsub; simp at hsub
  | node j tl tv tr ihl ihr =>
    intro hbst hnd i l v r c hsub
    obtain ⟨hl, hr, hbl, hbr⟩ := hbst
    have hnd' : j ∉ (tl.ids ++ tr.ids) ∧ tl.ids.Nodup ∧ tr.ids.Nodup ∧
        tl.ids.Disjoint tr.ids := by
      have h0 := hnd
      rw [ids_node, List.nodup_cons, List.nodup_append] at h0
      exact ⟨h0.1, h0.2.1, h0.2.2.1, h0.2.2.2⟩
    by_cases hj : j = i
    · subst hj
      obtain ⟨rfl, rfl, rfl⟩ :=
        isSubtree_node_id_unique hnd hsub (isSubtree_refl (.node j tl tv tr))
      have hvnotl : v ∉ l.toList := fun hm => absurd (hl v hm) (lt_irrefl v)
      cases r with
      | leaf =>
        rw [erase_impl_hit_rleaf, toList_node, toList_leaf]
        show l.toList = (l.toList ++ [v]).erase v
        rw [erase_middle hvnotl, List.append_nil]
      | node rid rl rv rr =>
        cases l with
        | leaf =>
          rw [erase_impl_hit_lleaf]
          simp only [toList_node, toList_leaf, List.nil_append, List.erase_cons_head]
        | node li ll lv lr =>
          obtain ⟨rr2, hmin⟩ := minFrom_isSubtree rid rl rv rr
          have hrec := ihr hbr hnd'.2.2.1 (minFrom rid rl rv).1 .leaf
            (minFrom rid rl rv).2 rr2 c hmin
          have hhead := minFrom_head rid rl rv rr
          rw [erase_impl_hit_both]
          simp only [toList_node] at hvnotl hrec hhead ⊢
          rw [erase_middle hvnotl]
          cases hrt : rl.toList ++ rv :: rr.toList with
          | nil => simp at hrt
          | cons h0 tail =>
            rw [hrt] at hhead hrec
            obtain rfl : h0 = (minFrom rid rl rv).2 := by simpa using hhead
            rw [hrec, List.erase_cons_head]
    · have hji : j ≠ i := hj
      by_cases htv : tv < v
      · rw [erase_impl_node_lt hji htv]
        have hsubr : IsSubtree (.node i l v r) tr := by
          rcases hsub with h | h | h
          · obtain ⟨rfl, -, -, -⟩ := BTree.node.inj h
            exact absurd rfl hji
          · exact absurd (hl v (mem_toList_of_isSubtree h)) (lt_asymm htv)
          · exact h
        rw [toList_node, toList_node, ihr hbr hnd'.2.2.1 i l v r c hsubr]
        have hvtl : v ∉ tl.toList := fun hm => absurd (hl v hm) (lt_asymm htv)
        rw [List.erase_append_right _ hvtl,
          List.erase_cons_tail (not_beq_of_ne (ne_of_lt htv))]
      · rw [erase_impl_node_not_lt hji htv]
        have hsubl : IsSubtree (.node i l v r) tl := by
          rcases hsub with h | h | h
          · obtain ⟨rfl, -, -, -⟩ := BTree.node.inj h
            exact absurd rfl hji
          · exact h
          · exact absurd (hr v (mem_toList_of_isSubtree h)) htv
        rw [toList_node, toList_node, ihl hbl hnd'.2.1 i l v r c hsubl]
        rw [List.erase_append_left _ (mem_toList_of_isSubtree hsubl)]

theorem erase_impl_ctr_mono (t : BTree α) :
    ∀ (p2 : ℕ) (p2v : α) (c : ℕ), c ≤ (erase_impl t p2 p2v c).2 := by
  induction t with
  | leaf => intro p2 p2v c; exact le_rfl
  | node j l v r ihl ihr =>
    intro p2 p2v c
    by_cases hj : j = p2
    · subst hj
      cases r with
      | leaf => rw [erase_impl_hit_rleaf]
      | node rid rl rv rr =>
        cases l with
        | leaf => rw [erase_impl_hit_lleaf]
        | node li ll lv lr =>
          rw [erase_impl_hit_both]
          exact le_trans (ihr _ _ c) (Nat.le_succ _)
    · by_cases hv : v < p2v
      · rw [erase_impl_node_lt hj hv]
        exact le_trans (ihr _ _ c) (Nat.le_succ _)
      · rw [erase_impl_node_not_lt hj hv]
        exact le_trans (ihl _ _ c) (Nat.le_succ _)

theorem erase_impl_ids_cases (t : BTree α) :
    ∀ (p2 : ℕ) (p2v : α) (c : ℕ), ∀ j ∈ (erase_impl t p2 p2v c).1.ids,
      j ∈ t.ids ∨ (c ≤ j ∧ j < (erase_impl t p2 p2v c).2) := by
  induction t with
  | leaf => intro p2 p2v c j hj; simp [erase_impl] at hj
  | node j0 l v r ihl ihr =>
    intro p2 p2v c j hj
    by_cases hj0 : j0 = p2
    · subst hj0
      cases r with
      | leaf =>
        rw [erase_impl_hit_rleaf] at hj ⊢
        exact Or.inl (List.mem_cons.mpr (Or.inr (List.mem_append.mpr (Or.inl hj))))
      | node rid rl rv rr =>
        cases l with
        | leaf =>
          rw [erase_impl_hit_lleaf] at hj ⊢
          exact Or.inl (List.mem_cons.mpr (Or.inr (List.mem_append.mpr (Or.inr hj))))
        | node li ll lv lr =>
          rw [erase_impl_hit_both] at hj ⊢
          rcases List.mem_cons.mp hj with rfl | hj2
          · exact Or.inr ⟨erase_impl_ctr_mono _ _ _ c, Nat.lt_succ_self _⟩
          · rcases List.mem_append.mp hj2 with h | h
            · exact Or.inl (List.mem_cons.mpr (Or.inr (List.mem_append.mpr (Or.inl h))))
            · rcases ihr _ _ c j h with h | ⟨h1, h2⟩
              · exact Or.inl (List.mem_cons.mpr (Or.inr (List.mem_append.mpr (Or.inr h))))
              · exact Or.inr ⟨h1, lt_trans h2 (Nat.lt_succ_self _)⟩
    · by_cases hv : v < p2v
      · rw [erase_impl_node_lt hj0 hv] at hj ⊢
        rcases List.mem_cons.mp hj with rfl | hj2
        · exact Or.inr ⟨erase_impl_ctr_mono _ _ _ c, Nat.lt_succ_self _⟩
        · rcases List.mem_append.mp hj2 with h | h
          · exact Or.inl (List.mem_cons.mpr (Or.inr (List.mem_append.mpr (Or.inl h))))
          · rcases ihr _ _ c j h with h | ⟨h1, h2⟩
            · exact Or.inl (List.mem_cons.mpr (Or.inr (List.mem_append.mpr (Or.inr h))))
            · exact Or.inr ⟨h1, lt_trans h2 (Nat.lt_succ_self _)⟩
      · rw [erase_impl_node_not_lt hj0 hv] at hj ⊢
        rcases List.mem_cons.mp hj with rfl | hj2
        · exact Or.inr ⟨erase_impl_ctr_mono _ _ _ c, Nat.lt_succ_self _⟩
        · rcases List.mem_append.mp hj2 with h | h
          · rcases ihl _ _ c j h with h | ⟨h1, h2⟩
            · exact Or.inl (List.mem_cons.mpr (Or.inr (List.mem_append.mpr (Or.inl h))))
            · exact Or.inr ⟨h1, lt_trans h2 (Nat.lt_succ_self _)⟩
          · exact Or.inl (List.mem_cons.mpr (Or.inr (List.mem_append.mpr (Or.inr h))))

theorem erase_impl_ids_bound {t : BTree α} {c : ℕ} (hb : ∀ j ∈ t.ids, j < c)
    (p2 : ℕ) (p2v : α) :
    ∀ j ∈ (erase_impl t p2 p2v c).1.ids, j < (erase_impl t p2 p2v c).2 := by
  intro j hj
  rcases erase_impl_ids_cases t p2 p2v c j hj with h | ⟨-, h2⟩
  · exact lt_of_lt_of_le (hb j h) (erase_impl_ctr_mono t p2 p2v c)
  · exact h2

theorem erase_impl_ids_nodup (t : BTree α) :
    ∀ (p2 : ℕ) (p2v : α) (c : ℕ), (∀ j ∈ t.ids, j < c) → t.ids.Nodup →
      (erase_impl t p2 p2v c).1.ids.Nodup := by
  induction t with
  | leaf => intro p2 p2v c _ _; simp [erase_impl]
  | node j0 l v r ihl ihr =>
    intro p2 p2v c hb hnd
    rw [ids_node, List.nodup_cons, List.nodup_append] at hnd
    obtain ⟨h0, hnl, hnr, hdisj⟩ := hnd
    have hbl : ∀ j ∈ l.ids, j < c := fun j hj => hb j (by simp [hj])
    have hbr : ∀ j ∈ r.ids, j < c := fun j hj => hb j (by simp [hj])
    by_cases hj0 : j0 = p2
    · subst hj0
      cases r with
      | leaf => rw [erase_impl_hit_rleaf]; exact hnl
      | node rid rl rv rr =>
        cases l with
        | leaf => rw [erase_impl_hit_lleaf]; exact hnr
        | node li ll lv lr =>
          rw [erase_impl_hit_both, ids_node, List.nodup_cons, List.nodup_append]
          refine ⟨?_, hnl, ihr _ _ c hbr hnr, ?_⟩
          · intro hmem
            rcases List.mem_append.mp hmem with h | h
            · exact absurd (lt_of_lt_of_le (hbl _ h) (erase_impl_ctr_mono _ _ _ c))
                (lt_irrefl _)
            · exact absurd (erase_impl_ids_bound hbr _ _ _ h) (lt_irrefl _)
          · intro a hal har
            rcases erase_impl_ids_cases _ _ _ c a har with h | ⟨h1, -⟩
            · exact hdisj hal h
            · exact absurd (hbl a hal) (not_lt.mpr h1)
    · by_cases hv : v < p2v
      · rw [erase_impl_node_lt hj0 hv, ids_node, List.nodup_cons, List.nodup_append]
        refine ⟨?_, hnl, ihr _ _ c hbr hnr, ?_⟩
        · intro hmem
          rcases List.mem_append.mp hmem with h | h
          · exact absurd (lt_of_lt_of_le (hbl _ h) (erase_impl_ctr_mono _ _ _ c))
              (lt_irrefl _)
          · exact absurd (erase_impl_ids_bound hbr _ _ _ h) (lt_irrefl _)
        · intro a hal har
          rcases erase_impl_ids_cases _ _ _ c a har with h | ⟨h1, -⟩
          · exact hdisj hal h
          · exact absurd (hbl a hal) (not_lt.mpr h1)
      · rw [erase_impl_node_not_lt hj0 hv, ids_node, List.nodup_cons, List.nodup_append]
        refine ⟨?_, ihl _ _ c hbl hnl, hnr, ?_⟩
        · intro hmem
          rcases List.mem_append.mp hmem with h | h
          · exact absurd (erase_impl_ids_bound hbl _ _ _ h) (lt_irrefl _)
          · exact absurd (lt_of_lt_of_le (hbr _ h) (erase_impl_ctr_mono _ _ _ c))
              (lt_irrefl _)
        · intro a hal har
          rcases erase_impl_ids_cases _ _ _ c a hal with h | ⟨h1, -⟩
          · exact hdisj h har
          · exact absurd (hbr a har) (not_lt.mpr h1)

theorem erase_impl_bst {t : BTree α} (hbst : BST t) (hnd : t.ids.Nodup)
    {i : ℕ} {l r : BTree α} {v : α} (hsub : IsSubtree (.node i l v r) t) (c : ℕ) :
    BST (erase_impl t i v c).1 := by
  rw [bst_iff_sorted, erase_impl_toList t hbst hnd i l v r c hsub]
  exact List.Pairwise.sublist (List.erase_sublist _ _) ((bst_iff_sorted t).mp hbst)

/-! Correctness of the parent-free successor and predecessor re-descent. -/

theorem bst_isSubtree {s t : BTree α} (hbst : BST t) (h : IsSubtree s t) : BST s := by
  induction t with
  | leaf => rw [isSubtree_leaf_iff] at h; subst h; trivial
  | node i l v r ihl ihr =>
    rcases h with h | h | h
    · subst h; exact hbst
    · exact ihl hbst.2.2.1 h
    · exact ihr hbst.2.2.2 h

theorem findNode_of_isSubtree {t : BTree α} (hbst : BST t) {i : ℕ} {l r : BTree α} {v : α}
    (hsub : IsSubtree (.node i l v r) t) : t.findNode v = some i := by
  obtain ⟨i2, h2⟩ := findNode_isSome_of_mem hbst (mem_toList_of_isSubtree hsub)
  obtain ⟨l2, r2, hs2⟩ := findNode_some h2
  rw [h2, (isSubtree_node_value_unique hbst hs2 hsub).1]

theorem head?_mem {l : List α} {a : α} (h : l.head? = some a) : a ∈ l :=
  List.mem_of_mem_head? (Option.mem_def.mpr h)

theorem getLast?_mem {l : List α} {a : α} (h : l.getLast? = some a) : a ∈ l := by
  induction l with
  | nil => simp at h
  | cons b bs ih =>
    cases bs with
    | nil => simp at h; simp [h]
    | cons b2 bs2 =>
      rw [List.getLast?_cons_cons] at h
      exact List.mem_cons.mpr (Or.inr (ih h))

theorem filter_lt_all_nil {x : α} {l : List α} (h : ∀ y ∈ l, y < x) :
    l.filter (fun y => decide (x < y)) = [] :=
  List.filter_eq_nil_iff.mpr fun y hy => by simpa using asymm (h y hy)

theorem filter_lt_all_keep {x : α} {l : List α} (h : ∀ y ∈ l, x < y) :
    l.filter (fun y => decide (x < y)) = l :=
  List.filter_eq_self.mpr fun y hy => by simpa using h y hy

theorem filter_gt_all_nil {x : α} {l : List α} (h : ∀ y ∈ l, x < y) :
    l.filter (fun y => decide (y < x)) = [] :=
  List.filter_eq_nil_iff.mpr fun y hy => by simpa using asymm (h y hy)

theorem filter_gt_all_keep {x : α} {l : List α} (h : ∀ y ∈ l, y < x) :
    l.filter (fun y => decide (y < x)) = l :=
  List.filter_eq_self.mpr fun y hy => by simpa using h y hy

theorem nextDesc_spec : ∀ t : BTree α, BST t →
    ∀ (i0 : ℕ) (l0 : BTree α) (x : α), IsSubtree (.node i0 l0 x .leaf) t →
    ∀ acc, nextDesc x t acc =
      match succVal t x with
      | none => acc
      | some y => t.findNode y := by
  intro t
  induction t with
  | leaf => intro _ i0 l0 x hsub; simp at hsub
  | node j l v r ihl ihr =>
    intro hbst i0 l0 x hsub acc
    have hbst' := hbst
    obtain ⟨hl, hr, hbl, hbr⟩ := hbst
    rcases lt_trichotomy v x with hvx | hvx | hxv
    · -- descend right, recording nothing
      have hsubr : IsSubtree (.node i0 l0 x .leaf) r := by
        rcases hsub with h | h | h
        · obtain ⟨-, -, rfl, -⟩ := BTree.node.inj h
          exact absurd hvx (lt_irrefl _)
        · exact absurd (hl x (mem_toList_of_isSubtree h)) (asymm hvx)
        · exact h
      have hstep : nextDesc x (BTree.node j l v r) acc = nextDesc x r acc := by
        simp [nextDesc, if_pos hvx]
      have hfilter : succVal (BTree.node j l v r) x = succVal r x := by
        unfold succVal
        rw [toList_node, List.filter_append, List.filter_cons,
          filter_lt_all_nil (fun y hy => lt_trans (hl y hy) hvx)]
        rw [if_neg (by simpa using asymm hvx), List.nil_append]
      rw [hstep, hfilter, ihr hbr i0 l0 x hsubr acc]
      cases hs : succVal r x with
      | none => simp
      | some y =>
        have hhead : (r.toList.filter (fun y => decide (x < y))).head? = some y := hs
        have hy : y ∈ r.toList := (List.mem_filter.mp (head?_mem hhead)).1
        have hvy : v < y := hr y hy
        show r.findNode y = (BTree.node j l v r).findNode y
        simp only [BTree.findNode]
        rw [if_neg (show ¬ v > y from asymm hvy), if_pos hvy]
    · -- the stepped node itself: its right subtree is empty, return acc
      subst hvx
      obtain ⟨-, -, hre⟩ :=
        isSubtree_node_value_unique hbst' hsub (isSubtree_refl (.node j l v r))
      obtain rfl := hre.symm
      have hstep : nextDesc v (BTree.node j l v .leaf) acc = acc := by
        simp [nextDesc]
      have hfilter : succVal (BTree.node j l v .leaf) v = none := by
        unfold succVal
        rw [toList_node, toList_leaf, List.filter_append, List.filter_cons,
          filter_lt_all_nil hl]
        simp
      rw [hstep, hfilter]
    · -- descend left, recording the current node as candidate
      have hsubl : IsSubtree (.node i0 l0 x .leaf) l := by
        rcases hsub with h | h | h
        · obtain ⟨-, -, rfl, -⟩ := BTree.node.inj h
          exact absurd hxv (lt_irrefl _)
        · exact h
        · exact absurd (hr x (mem_toList_of_isSubtree h)) (asymm hxv)
      have hstep : nextDesc x (BTree.node j l v r) acc = nextDesc x l (some j) := by
        simp [nextDesc, if_neg (asymm hxv), if_pos hxv]
      have hfilter : (BTree.node j l v r).toList.filter (fun y => decide (x < y)) =
          l.toList.filter (fun y => decide (x < y)) ++ v :: r.toList := by
        rw [toList_node, List.filter_append, List.filter_cons]
        rw [if_pos (by simpa using hxv),
          filter_lt_all_keep (fun y hy => lt_trans hxv (hr y hy))]
      rw [hstep, ihl hbl i0 l0 x hsubl (some j)]
      cases hfl : succVal l x with
      | none =>
        have hfl' : (l.toList.filter (fun y => decide (x < y))).head? = none := hfl
        have hnil : l.toList.filter (fun y => decide (x < y)) = [] :=
          List.head?_eq_none_iff.mp hfl'
        have hsv : succVal (BTree.node j l v r) x = some v := by
          unfold succVal
          rw [hfilter, hnil, List.nil_append, List.head?_cons]
        rw [hsv]
        simp [BTree.findNode]
      | some y =>
        have hfl' : (l.toList.filter (fun y => decide (x < y))).head? = some y := hfl
        have hy : y ∈ l.toList := (List.mem_filter.mp (head?_mem hfl')).1
        have hyv : y < v := hl y hy
        have hsv : succVal (BTree.node j l v r) x = some y := by
          unfold succVal
          rw [hfilter]
          cases hfll : l.toList.filter (fun y => decide (x < y)) with
          | nil => rw [hfll] at hfl'; exact absurd hfl' (by simp)
          | cons a as =>
            rw [hfll] at hfl'
            simpa using hfl'
        rw [hsv]
        show l.findNode y = (BTree.node j l v r).findNode y
        simp only [BTree.findNode]
        rw [if_pos (show v > y from hyv)]

theorem prevDesc_spec : ∀ t : BTree α, BST t →
    ∀ (i0 : ℕ) (r0 : BTree α) (x : α), IsSubtree (.node i0 .leaf x r0) t →
    ∀ acc, prevDesc x t acc =
      match predVal t x with
      | none => acc
      | some y => t.findNode y := by
  intro t
  induction t with
  | leaf => intro _ i0 r0 x hsub; simp at hsub
  | node j l v r ihl ihr =>
    intro hbst i0 r0 x hsub acc
    have hbst' := hbst
    obtain ⟨hl, hr, hbl, hbr⟩ := hbst
    rcases lt_trichotomy v x with hvx | hvx | hxv
    · -- descend right, recording the current node as candidate
      have hsubr : IsSubtree (.node i0 .leaf x r0) r := by
        rcases hsub with h | h | h
        · obtain ⟨-, -, rfl, -⟩ := BTree.node.inj h
          exact absurd hvx (lt_irrefl _)
        · exact absurd (hl x (mem_toList_of_isSubtree h)) (asymm hvx)
        · exact h
      have hstep : prevDesc x (BTree.node j l v r) acc = prevDesc x r (some j) := by
        simp [prevDesc, if_pos hvx]
      have hfilter : (BTree.node j l v r).toList.filter (fun y => decide (y < x)) =
          l.toList ++ v :: r.toList.filter (fun y => decide (y < x)) := by
        rw [toList_node, List.filter_append, List.filter_cons]
        rw [if_pos (by simpa using hvx),
          filter_gt_all_keep (fun y hy => lt_trans (hl y hy) hvx)]
      rw [hstep, ihr hbr i0 r0 x hsubr (some j)]
      cases hfr : predVal r x with
      | none =>
        have hfr' : (r.toList.filter (fun y => decide (y < x))).getLast? = none := hfr
        have hnil : r.toList.filter (fun y => decide (y < x)) = [] :=
          List.getLast?_eq_none_iff.mp hfr'
        have hsv : predVal (BTree.node j l v r) x = some v := by
          unfold predVal
          rw [hfilter, hnil, List.getLast?_concat]
        rw [hsv]
        simp [BTree.findNode]
      | some y =>
        have hfr' : (r.toList.filter (fun y => decide (y < x))).getLast? = some y := hfr
        have hy : y ∈ r.toList := (List.mem_filter.mp (getLast?_mem hfr')).1
        have hvy : v < y := hr y hy
        have hsv : predVal (BTree.node j l v r) x = some y := by
          unfold predVal
          rw [hfilter]
          cases hfrl : r.toList.filter (fun y => decide (y < x)) with
          | nil => rw [hfrl] at hfr'; exact absurd hfr' (by simp)
          | cons a as =>
            rw [hfrl] at hfr'
            rw [List.getLast?_append_cons, List.getLast?_cons_cons]
            exact hfr'
        rw [hsv]
        show r.findNode y = (BTree.node j l v r).findNode y
        simp only [BTree.findNode]
        rw [if_neg (show ¬ v > y from asymm hvy), if_pos hvy]
    · -- the stepped node itself: its left subtree is empty, return acc
      subst hvx
      obtain ⟨-, hle, -⟩ :=
        isSubtree_node_value_unique hbst' hsub (isSubtree_refl (.node j l v r))
      obtain rfl := hle.symm
      have hstep : prevDesc v (BTree.node j .leaf v r) acc = acc := by
        simp [prevDesc]
      have hfilter : predVal (BTree.node j .leaf v r) v = none := by
        unfold predVal
        rw [toList_node, toList_leaf, List.nil_append, List.filter_cons]
        rw [if_neg (by simp), filter_gt_all_nil hr]
        rfl
      rw [hstep, hfilter]
    · -- descend left, recording nothing
      have hsubl : IsSubtree (.node i0 .leaf x r0) l := by
        rcases hsub with h | h | h
        · obtain ⟨-, -, rfl, -⟩ := BTree.node.inj h
          exact absurd hxv (lt_irrefl _)
        · exact h
        · exact absurd (hr x (mem_toList_of_isSubtree h)) (asymm hxv)
      have hstep : prevDesc x (BTree.node j l v r) acc = prevDesc x l acc := by
        simp [prevDesc, if_neg (asymm hxv), if_pos hxv]
      have hfilter : predVal (BTree.node j l v r) x = predVal l x := by
        unfold predVal
        rw [toList_node, List.filter_append, List.filter_cons]
        rw [if_neg (by simpa using asymm hxv),
          filter_gt_all_nil (fun y hy => lt_trans hxv (hr y hy))]
        rw [List.append_nil]
      rw [hstep, hfilter, ihl hbl i0 r0 x hsubl acc]
      cases hs : predVal l x with
      | none => simp
      | some y =>
        have hhead : (l.toList.filter (fun y => decide (y < x))).getLast? = some y := hs
        have hy : y ∈ l.toList := (List.mem_filter.mp (getLast?_mem hhead)).1
        have hyv : y < v := hl y hy
        show l.findNode y = (BTree.node j l v r).findNode y
        simp only [BTree.findNode]
        rw [if_pos (show v > y from hyv)]

theorem succVal_of_right_node {root : BTree α} (hbst : BST root) {i : ℕ} {l : BTree α}
    {v : α} {rid : ℕ} {rl : BTree α} {rv : α} {rr : BTree α}
    (hsub : IsSubtree (.node i l v (.node rid rl rv rr)) root) :
    succVal root v = some (minFrom rid rl rv).2 := by
  obtain ⟨A, B, hd⟩ := isSubtree_toList_decomp hsub
  rw [toList_node] at hd
  have hsorted := (bst_iff_sorted root).mp hbst
  rw [hd] at hsorted
  obtain ⟨hsAM, hsB, hcrossB⟩ := (sorted_append_iff _ _).mp hsorted
  obtain ⟨hsA, hsM, hcrossA⟩ := (sorted_append_iff _ _).mp hsAM
  obtain ⟨hl, hr, -, -⟩ := bst_isSubtree hbst hsub
  unfold succVal
  rw [hd, List.filter_append, List.filter_append, List.filter_append, List.filter_cons]
  rw [filter_lt_all_nil (fun a ha => hcrossA a ha v (by simp))]
  rw [filter_lt_all_nil hl]
  rw [if_neg (by simp)]
  rw [filter_lt_all_keep hr]
  rw [filter_lt_all_keep (fun b hb => hcrossB v (by simp) b hb)]
  rw [List.nil_append, List.nil_append]
  cases hc : (BTree.node rid rl rv rr).toList with
  | nil => exact absurd hc (toList_node_ne_nil rid rl rv rr)
  | cons a as =>
    have := minFrom_head rid rl rv rr
    rw [hc] at this
    rw [List.cons_append, List.head?_cons]
    simpa using this

theorem predVal_of_left_node {root : BTree α} (hbst : BST root) {i : ℕ} {r : BTree α}
    {v : α} {lid : ℕ} {ll : BTree α} {lv : α} {lr : BTree α}
    (hsub : IsSubtree (.node i (.node lid ll lv lr) v r) root) :
    predVal root v = some (maxFrom lid lv lr).2 := by
  obtain ⟨A, B, hd⟩ := isSubtree_toList_decomp hsub
  rw [toList_node] at hd
  have hsorted := (bst_iff_sorted root).mp hbst
  rw [hd] at hsorted
  obtain ⟨hsAM, hsB, hcrossB⟩ := (sorted_append_iff _ _).mp hsorted
  obtain ⟨hsA, hsM, hcrossA⟩ := (sorted_append_iff _ _).mp hsAM
  obtain ⟨hl, hr, -, -⟩ := bst_isSubtree hbst hsub
  unfold predVal
  rw [hd, List.filter_append, List.filter_append, List.filter_append, List.filter_cons]
  rw [filter_gt_all_keep (fun a ha => hcrossA a ha v (by simp))]
  rw [filter_gt_all_keep hl]
  rw [if_neg (by simp)]
  rw [filter_gt_all_nil hr]
  rw [filter_gt_all_nil (fun b hb => hcrossB v (by simp) b hb)]
  rw [List.append_nil, List.append_nil]
  rw [List.getLast?_append_of_ne_nil A (toList_node_ne_nil lid ll lv lr)]
  exact maxFrom_getLast lid ll lv lr

theorem bNodeNext_spec {root : BTree α} (hbst : BST root) {i : ℕ} {l r : BTree α} {v : α}
    (hsub : IsSubtree (.node i l v r) root) :
    bNodeNext v r root =
      match succVal root v with
      | none => none
      | some y => root.findNode y := by
  cases r with
  | leaf => exact nextDesc_spec root hbst i l v hsub none
  | node rid rl rv rr =>
    rw [succVal_of_right_node hbst hsub]
    obtain ⟨rr2, hmin⟩ := minFrom_isSubtree rid rl rv rr
    have hminsub : IsSubtree
        (.node (minFrom rid rl rv).1 .leaf (minFrom rid rl rv).2 rr2) root :=
      isSubtree_trans hmin (isSubtree_trans (isSubtree_right i l v (isSubtree_refl _)) hsub)
    show bNodeNext v (BTree.node rid rl rv rr) root = root.findNode (minFrom rid rl rv).2
    exact (findNode_of_isSubtree hbst hminsub).symm

theorem bNodePrev_spec {root : BTree α} (hbst : BST root) {i : ℕ} {l r : BTree α} {v : α}
    (hsub : IsSubtree (.node i l v r) root) :
    bNodePrev v l root =
      match predVal root v with
      | none => none
      | some y => root.findNode y := by
  cases l with
  | leaf => exact prevDesc_spec root hbst i r v hsub none
  | node lid ll lv lr =>
    rw [predVal_of_left_node hbst hsub]
    obtain ⟨ll2, hmax⟩ := maxFrom_isSubtree lid ll lv lr
    have hmaxsub : IsSubtree
        (.node (maxFrom lid lv lr).1 ll2 (maxFrom lid lv lr).2 .leaf) root :=
      isSubtree_trans hmax (isSubtree_trans (isSubtree_left i v r (isSubtree_refl _)) hsub)
    show bNodePrev v (BTree.node lid ll lv lr) root = root.findNode (maxFrom lid lv lr).2
    exact (findNode_of_isSubtree hbst hmaxsub).symm

theorem sorted_getLast?_max : ∀ l : List α, l.Sorted (· < ·) →
    ∀ m, l.getLast? = some m → ∀ y ∈ l, ¬ m < y := by
  intro l
  induction l with
  | nil => intro _ m h; simp at h
  | cons a l' ih =>
    intro hs m h y hy
    rw [List.sorted_cons] at hs
    cases l' with
    | nil =>
      obtain rfl : a = m := by simpa using h
      obtain rfl : y = a := by simpa using hy
      exact lt_irrefl y
    | cons b bs =>
      rw [List.getLast?_cons_cons] at h
      rcases List.mem_cons.mp hy with rfl | hy'
      · exact asymm (hs.1 m (getLast?_mem h))
      · exact ih hs.2 m h y hy'

/-! Agreement of the fuel-indexed loop bodies with the total descent functions:
each unbounded source loop returns within height-many iterations. -/

theorem findFuel_spec (t : BTree α) (x : α) :
    ∀ fuel, t.height < fuel → findFuel x fuel t = some (t.findNode x) := by
  induction t with
  | leaf =>
    intro fuel h
    cases fuel with
    | zero => omega
    | succ n => rfl
  | node i l v r ihl ihr =>
    intro fuel h
    cases fuel with
    | zero => simp [BTree.height] at h
    | succ n =>
      have hmaxl := le_max_left l.height r.height
      have hmaxr := le_max_right l.height r.height
      have hh : (BTree.node i l v r).height = max l.height r.height + 1 := rfl
      rw [hh] at h
      by_cases h1 : v > x
      · rw [show findFuel x (n + 1) (BTree.node i l v r) = findFuel x n l from by
          simp [findFuel, if_pos h1]]
        rw [show (BTree.node i l v r).findNode x = l.findNode x from by
          simp [BTree.findNode, if_pos h1]]
        exact ihl n (by omega)
      · by_cases h2 : v < x
        · rw [show findFuel x (n + 1) (BTree.node i l v r) = findFuel x n r from by
            simp [findFuel, if_neg h1, if_pos h2]]
          rw [show (BTree.node i l v r).findNode x = r.findNode x from by
            simp [BTree.findNode, if_neg h1, if_pos h2]]
          exact ihr n (by omega)
        · simp [findFuel, BTree.findNode, if_neg h1, if_neg h2]

theorem nextDescFuel_spec (x : α) : ∀ (t : BTree α) (acc : Option ℕ) fuel,
    t.height < fuel → nextDescFuel x fuel t acc = some (nextDesc x t acc) := by
  intro t
  induction t with
  | leaf =>
    intro acc fuel h
    cases fuel with
    | zero => omega
    | succ n => rfl
  | node i l v r ihl ihr =>
    intro acc fuel h
    cases fuel with
    | zero => simp [BTree.height] at h
    | succ n =>
      have hmaxl := le_max_left l.height r.height
      have hmaxr := le_max_right l.height r.height
      have hh : (BTree.node i l v r).height = max l.height r.height + 1 := rfl
      rw [hh] at h
      by_cases h1 : v < x
      · rw [show nextDescFuel x (n + 1) (BTree.node i l v r) acc = nextDescFuel x n r acc
          from by simp [nextDescFuel, if_pos h1]]
        rw [show nextDesc x (BTree.node i l v r) acc = nextDesc x r acc from by
          simp [nextDesc, if_pos h1]]
        exact ihr acc n (by omega)
      · by_cases h2 : v > x
        · rw [show nextDescFuel x (n + 1) (BTree.node i l v r) acc =
              nextDescFuel x n l (some i) from by simp [nextDescFuel, if_neg h1, if_pos h2]]
          rw [show nextDesc x (BTree.node i l v r) acc = nextDesc x l (some i) from by
            simp [nextDesc, if_neg h1, if_pos h2]]
          exact ihl (some i) n (by omega)
        · simp [nextDescFuel, nextDesc, if_neg h1, if_neg h2]

theorem prevDescFuel_spec (x : α) : ∀ (t : BTree α) (acc : Option ℕ) fuel,
    t.height < fuel → prevDescFuel x fuel t acc = some (prevDesc x t acc) := by
  intro t
  induction t with
  | leaf =>
    intro acc fuel h
    cases fuel with
    | zero => omega
    | succ n => rfl
  | node i l v r ihl ihr =>
    intro acc fuel h
    cases fuel with
    | zero => simp [BTree.height] at h
    | succ n =>
      have hmaxl := le_max_left l.height r.height
      have hmaxr := le_max_right l.height r.height
      have hh : (BTree.node i l v r).height = max l.height r.height + 1 := rfl
      rw [hh] at h
      by_cases h1 : v < x
      · rw [show prevDescFuel x (n + 1) (BTree.node i l v r) acc =
            prevDescFuel x n r (some i) from by simp [prevDescFuel, if_pos h1]]
        rw [show prevDesc x (BTree.node i l v r) acc = prevDesc x r (some i) from by
          simp [prevDesc, if_pos h1]]
        exact ihr (some i) n (by omega)
      · by_cases h2 : v > x
        · rw [show prevDescFuel x (n + 1) (BTree.node i l v r) acc =
              prevDescFuel x n l acc from by simp [prevDescFuel, if_neg h1, if_pos h2]]
          rw [show prevDesc x (BTree.node i l v r) acc = prevDesc x l acc from by
            simp [prevDesc, if_neg h1, if_pos h2]]
          exact ihl acc n (by omega)
        · simp [prevDescFuel, prevDesc, if_neg h1, if_neg h2]

/-! Handle-level lemmas: unfolding the public operations and preservation of
well-formedness along every reachable state. -/

theorem wf_iff (s : PSet α) : WF s ↔
    ((s.tree = none → s.size = 0) ∧
      ∀ t, s.tree = some t →
        BST t ∧ t.ids.Nodup ∧ (∀ j ∈ t.ids, j < s.ctr) ∧ s.size = t.count) := by
  obtain ⟨tr, sz, c⟩ := s
  cases tr with
  | none => simp [WF]
  | some t => simp [WF]

theorem toList_eq_getD (s : PSet α) : s.toList = (s.tree.getD .leaf).toList := by
  obtain ⟨tr, sz, c⟩ := s
  cases tr with
  | none => rfl
  | some t => rfl

theorem wf_bundle {s : PSet α} (hwf : WF s) :
    BST (s.tree.getD .leaf) ∧ (s.tree.getD .leaf).ids.Nodup ∧
    (∀ j ∈ (s.tree.getD .leaf).ids, j < s.ctr) ∧ s.size = (s.tree.getD .leaf).count := by
  obtain ⟨tr, sz, c⟩ := s
  cases tr with
  | none => exact ⟨trivial, by simp, by simp, hwf⟩
  | some t => exact hwf

theorem PSet.insert_found {s : PSet α} {x : α} {i : ℕ}
    (h : (s.tree.getD .leaf).findNode x = some i) :
    s.insert x = (⟨some (s.tree.getD .leaf), s.size, s.ctr⟩, some i, false) := by
  simp only [PSet.insert, h]

theorem PSet.insert_new {s : PSet α} {x : α}
    (h : (s.tree.getD .leaf).findNode x = none) :
    s.insert x = (⟨some (insert_impl (s.tree.getD .leaf) x s.ctr).1, s.size + 1,
        (insert_impl (s.tree.getD .leaf) x s.ctr).2.2⟩,
      some (insert_impl (s.tree.getD .leaf) x s.ctr).2.1, true) := by
  simp only [PSet.insert, h]

theorem PSet.find_eq_getD (s : PSet α) (x : α) :
    s.find x = (s.tree.getD .leaf).findNode x := by
  obtain ⟨tr, sz, c⟩ := s
  cases tr with
  | none => rfl
  | some t => rfl

theorem PSet.find_eq_none_iff {s : PSet α} (hwf : WF s) (x : α) :
    s.find x = none ↔ x ∉ s.toList := by
  rw [PSet.find_eq_getD, toList_eq_getD]
  exact findNode_eq_none_iff (wf_bundle hwf).1 x

theorem insert_found_spec {s : PSet α} (hwf : WF s) {x : α} (hx : x ∈ s.toList) :
    ∃ i root, s.tree = some root ∧ (∃ dl dr, IsSubtree (.node i dl x dr) root) ∧
      s.insert x = (s, some i, false) := by
  have hbst := (wf_bundle hwf).1
  have hxl : x ∈ (s.tree.getD .leaf).toList := by rwa [toList_eq_getD] at hx
  obtain ⟨i, hfind⟩ := findNode_isSome_of_mem hbst hxl
  obtain ⟨dl, dr, hsub⟩ := findNode_some hfind
  obtain ⟨tr, sz, c⟩ := s
  cases tr with
  | none => simp [PSet.toList] at hx
  | some root =>
    refine ⟨i, root, rfl, ⟨dl, dr, hsub⟩, ?_⟩
    rw [PSet.insert_found hfind]
    rfl

theorem insert_new_spec {s : PSet α} (hwf : WF s) {x : α} (hx : x ∉ s.toList) :
    (s.insert x).2.2 = true ∧
    (s.insert x).1.tree = some (insert_impl (s.tree.getD .leaf) x s.ctr).1 ∧
    (s.insert x).1.size = s.size + 1 ∧
    (s.insert x).1.ctr = (insert_impl (s.tree.getD .leaf) x s.ctr).2.2 ∧
    (s.insert x).2.1 = some (insert_impl (s.tree.getD .leaf) x s.ctr).2.1 ∧
    (s.insert x).1.toList = insList x s.toList ∧
    WF (s.insert x).1 := by
  obtain ⟨hbst, hnd, hbound, hcount⟩ := wf_bundle hwf
  have hxl : x ∉ (s.tree.getD .leaf).toList := by rwa [toList_eq_getD] at hx
  have hfind : (s.tree.getD .leaf).findNode x = none := (findNode_eq_none_iff hbst x).mpr hxl
  rw [PSet.insert_new hfind]
  refine ⟨rfl, rfl, rfl, rfl, rfl, ?_, ?_⟩
  · show (insert_impl (s.tree.getD .leaf) x s.ctr).1.toList = insList x s.toList
    rw [insert_impl_toList hbst hfind, toList_eq_getD]
  · rw [wf_iff]
    refine ⟨by simp, ?_⟩
    intro t ht
    obtain rfl : t = (insert_impl (s.tree.getD .leaf) x s.ctr).1 := by simpa using ht.symm
    refine ⟨insert_impl_bst hbst hfind s.ctr,
      insert_impl_ids_nodup _ x s.ctr hbound hnd,
      insert_impl_ids_bound hbound x, ?_⟩
    show s.size + 1 = _
    rw [count_eq_length_toList, insert_impl_toList hbst hfind, length_insList,
      ← count_eq_length_toList, hcount]

theorem wf_insert {s : PSet α} (hwf : WF s) (x : α) : WF (s.insert x).1 := by
  by_cases hx : x ∈ s.toList
  · obtain ⟨i, root, htr, -, heq⟩ := insert_found_spec hwf hx
    rw [heq]
    exact hwf
  · exact (insert_new_spec hwf hx).2.2.2.2.2.2

theorem insert_mem_toList {s : PSet α} (hwf : WF s) (x : α) :
    x ∈ (s.insert x).1.toList := by
  by_cases hx : x ∈ s.toList
  · obtain ⟨i, root, htr, hsub, heq⟩ := insert_found_spec hwf hx
    rw [heq]
    exact hx
  · rw [(insert_new_spec hwf hx).2.2.2.2.2.1]
    exact (mem_insList x _ x).mpr (Or.inl rfl)

theorem erase_eq_of_empty {s : PSet α} (h : s.tree = none ∨ s.tree = some .leaf)
    (i : ℕ) (v : α) : s.erase i v = s := by
  obtain ⟨tr, sz, c⟩ := s
  rcases h with h | h
  · have h' : tr = none := h
    subst h'
    rfl
  · have h' : tr = some .leaf := h
    subst h'
    rfl

theorem erase_valid_spec {s : PSet α} (hwf : WF s) {root : BTree α}
    (htr : s.tree = some root) {i : ℕ} {dl dr : BTree α} {v : α}
    (hsub : IsSubtree (.node i dl v dr) root) :
    (s.erase i v).tree = some (erase_impl root i v s.ctr).1 ∧
    (s.erase i v).size = s.size - 1 ∧
    (s.erase i v).ctr = (erase_impl root i v s.ctr).2 ∧
    (s.erase i v).toList = s.toList.erase v ∧
    1 ≤ s.size ∧
    WF (s.erase i v) := by
  obtain ⟨hbst0, hnd0, hbound0, hcount0⟩ := wf_bundle hwf
  have hget : s.tree.getD .leaf = root := by rw [htr]; rfl
  rw [hget] at hbst0 hnd0 hbound0 hcount0
  cases root with
  | leaf => simp at hsub
  | node j tl tv tr2 =>
    obtain ⟨tr, sz, c⟩ := s
    have htr' : tr = some (.node j tl tv tr2) := htr
    subst htr'
    have hsz : sz = (BTree.node j tl tv tr2).count := hcount0
    have hvmem : v ∈ (BTree.node j tl tv tr2).toList := mem_toList_of_isSubtree hsub
    have hlen : 0 < (BTree.node j tl tv tr2).toList.length :=
      List.length_pos.mpr (List.ne_nil_of_mem hvmem)
    refine ⟨rfl, rfl, rfl, ?_, ?_, ?_⟩
    · show (erase_impl (.node j tl tv tr2) i v c).1.toList = _
      rw [erase_impl_toList _ hbst0 hnd0 i dl v dr c hsub]
      rfl
    · show 1 ≤ sz
      rw [hsz, count_eq_length_toList]
      omega
    · rw [wf_iff]
      refine ⟨fun hcontra => absurd hcontra (by simp [PSet.erase]), ?_⟩
      intro t ht
      obtain rfl : t = (erase_impl (.node j tl tv tr2) i v c).1 := by
        simpa [PSet.erase] using ht.symm
      refine ⟨erase_impl_bst hbst0 hnd0 hsub c, erase_impl_ids_nodup _ i v c hbound0 hnd0,
        erase_impl_ids_bound hbound0 i v, ?_⟩
      show sz - 1 = _
      rw [count_eq_length_toList, erase_impl_toList _ hbst0 hnd0 i dl v dr c hsub,
        List.length_erase_of_mem hvmem, hsz, count_eq_length_toList]

theorem eraseOK_iff (s : PSet α) (i : ℕ) (v : α) : EraseOK s i v ↔
    (s.tree = none ∨ s.tree = some .leaf ∨
      ∃ root, s.tree = some root ∧ ∃ dl dr, IsSubtree (.node i dl v dr) root) := by
  obtain ⟨tr, sz, c⟩ := s
  cases tr with
  | none =>
    show True ↔ _
    simp
  | some t =>
    cases t with
    | leaf =>
      show True ↔ _
      simp
    | node j l w r =>
      show (∃ dl dr, IsSubtree (.node i dl v dr) (.node j l w r)) ↔ _
      simp

theorem wf_clear (s : PSet α) : WF s.clear := rfl

theorem wf_init : WF (PSet.init α) := rfl

theorem reachable_wf {s : PSet α} (h : Reachable s) : WF s := by
  induction h with
  | init => exact wf_init
  | ins x h ih => exact wf_insert ih x
  | del i v h hok ih =>
    rcases (eraseOK_iff _ i v).mp hok with hnone | hleaf | ⟨root, htr, dl, dr, hsub⟩
    · rw [erase_eq_of_empty (Or.inl hnone)]
      exact ih
    · rw [erase_eq_of_empty (Or.inr hleaf)]
      exact ih
    · exact (erase_valid_spec ih htr hsub).2.2.2.2.2
  | clr h ih => exact wf_clear _
  | copy h ih => exact ih
  | swapFst h1 h2 ih1 ih2 => exact ih2
  | swapSnd h1 h2 ih1 ih2 => exact ih1

theorem count_eq_zero_iff (t : BTree α) : t.count = 0 ↔ t = .leaf := by
  cases t <;> simp

theorem begin_eq_none_iff (s : PSet α) :
    s.begin = none ↔ (s.tree = none ∨ s.tree = some .leaf) := by
  obtain ⟨tr, sz, c⟩ := s
  cases tr with
  | none => simp [PSet.begin]
  | some t =>
    cases t with
    | leaf => simp [PSet.begin]
    | node id l v r => simp [PSet.begin]

/-! The claim theorems. -/

/-- C1: Persistence.  For every well-formed handle `A = s` and value `x` not in
`A`, after taking a copy `B = A` and performing `A.insert(x)`: `B.find(x)`
returns `B`'s end cursor, `B`'s in-order traversal is exactly the sequence
before the insert, and `A`'s new traversal is the old sequence with `x` added
in sorted position (stated both as the sorted-insertion equation plus
sortedness and as set-membership). -/
theorem persistence_spec (s : PSet α) (x : α) (hwf : WF s) (hx : x ∉ s.toList) :
    (PSet.copy s).find x = PSet.endCursor (PSet.copy s) ∧
    (PSet.copy s).toList = s.toList ∧
    (s.insert x).1.toList = insList x s.toList ∧
    ((s.insert x).1.toList).Sorted (· < ·) ∧
    (∀ y, y ∈ (s.insert x).1.toList ↔ (y = x ∨ y ∈ s.toList)) := by
  have hins := insert_new_spec hwf hx
  refine ⟨(PSet.find_eq_none_iff hwf x).mpr hx, rfl, hins.2.2.2.2.2.1, ?_, ?_⟩
  · rw [hins.2.2.2.2.2.1]
    have hsorted : s.toList.Sorted (· < ·) := by
      rw [toList_eq_getD]
      exact (bst_iff_sorted _).mp (wf_bundle hwf).1
    exact sorted_insList hsorted hx
  · intro y
    rw [hins.2.2.2.2.2.1]
    exact mem_insList x _ y

/-- C2: Insert semantics.  On a well-formed handle: if `x` is present, `insert`
returns the cursor of the existing node holding `x` paired with `false` and
the handle is unchanged (so set and cardinality are unchanged); if `x` is
absent it returns `true`, the cardinality grows by exactly 1, the element set
is the old set plus `x`, and the cursor points to a freshly allocated node
holding `x`; an anchor is materialized when the handle had none; and a second
`insert(x)` immediately after a first returns `false` and changes nothing. -/
theorem insert_op_spec (s : PSet α) (x : α) (hwf : WF s) :
    (x ∈ s.toList →
      ∃ i root, s.tree = some root ∧ (∃ dl dr, IsSubtree (.node i dl x dr) root) ∧
        s.insert x = (s, some i, false)) ∧
    (x ∉ s.toList →
      (s.insert x).2.2 = true ∧
      (s.insert x).1.size = s.size + 1 ∧
      (∀ y, y ∈ (s.insert x).1.toList ↔ (y = x ∨ y ∈ s.toList)) ∧
      (∃ res root2, (s.insert x).2.1 = some res ∧ (s.insert x).1.tree = some root2 ∧
        IsSubtree (.node res .leaf x .leaf) root2 ∧ s.ctr ≤ res)) ∧
    (s.tree = none → ∃ t2, (s.insert x).1.tree = some t2) ∧
    ((s.insert x).1.insert x).2.2 = false ∧
    ((s.insert x).1.insert x).1 = (s.insert x).1 := by
  refine ⟨fun hx => insert_found_spec hwf hx, ?_, ?_, ?_, ?_⟩
  · intro hx
    have hins := insert_new_spec hwf hx
    refine ⟨hins.1, hins.2.2.1,
      fun y => by rw [hins.2.2.2.2.2.1]; exact mem_insList x _ y, ?_⟩
    exact ⟨(insert_impl (s.tree.getD .leaf) x s.ctr).2.1,
      (insert_impl (s.tree.getD .leaf) x s.ctr).1,
      hins.2.2.2.2.1, hins.2.1, insert_impl_new_node _ x _, insert_impl_res_lb _ x _⟩
  · intro htr
    by_cases hx : x ∈ s.toList
    · rw [toList_eq_getD, htr] at hx
      simp at hx
    · exact ⟨_, (insert_new_spec hwf hx).2.1⟩
  · have hwf1 := wf_insert hwf x
    obtain ⟨i, root, htr, hsub, heq⟩ := insert_found_spec hwf1 (insert_mem_toList hwf x)
    rw [heq]
  · have hwf1 := wf_insert hwf x
    obtain ⟨i, root, htr, hsub, heq⟩ := insert_found_spec hwf1 (insert_mem_toList hwf x)
    rw [heq]

/-- C3: Erase semantics.  On a well-formed handle, `erase` is a no-op when the
handle is empty; for a cursor identifying a node of the current tree (its
address and stored value), the resulting element sequence is the old one with
that value removed and cardinality drops by exactly 1; and at a node with two
children the path-copying deletion builds a replacement node holding the
minimum value of the right subtree (the in-order successor, the head of the
right subtree's traversal), the original left subtree, and the right subtree
with that successor removed. -/
theorem erase_op_spec (s : PSet α) (hwf : WF s) :
    (∀ (i : ℕ) (v : α), s.isEmpty = true → s.erase i v = s) ∧
    (∀ (root : BTree α) (i : ℕ) (dl : BTree α) (v : α) (dr : BTree α),
      s.tree = some root → IsSubtree (.node i dl v dr) root →
      ((s.erase i v).toList = s.toList.erase v ∧
        (∀ y, y ∈ (s.erase i v).toList ↔ (y ∈ s.toList ∧ y ≠ v)) ∧
        (s.erase i v).size + 1 = s.size)) ∧
    (∀ (i li rid : ℕ) (ll lr rl rr : BTree α) (v lv rv : α) (c : ℕ),
      BST (.node i (.node li ll lv lr) v (.node rid rl rv rr)) →
      (BTree.node rid rl rv rr).ids.Nodup →
      (erase_impl (.node i (.node li ll lv lr) v (.node rid rl rv rr)) i v c).1 =
        .node (erase_impl (.node rid rl rv rr) (minFrom rid rl rv).1
            (minFrom rid rl rv).2 c).2
          (.node li ll lv lr) (minFrom rid rl rv).2
          (erase_impl (.node rid rl rv rr) (minFrom rid rl rv).1
            (minFrom rid rl rv).2 c).1 ∧
      ((BTree.node rid rl rv rr).toList).head? = some (minFrom rid rl rv).2 ∧
      (erase_impl (.node rid rl rv rr) (minFrom rid rl rv).1
          (minFrom rid rl rv).2 c).1.toList =
        (BTree.node rid rl rv rr).toList.erase (minFrom rid rl rv).2) := by
  refine ⟨?_, ?_, ?_⟩
  · intro i v hemp
    have hsz : s.size = 0 := by simpa [PSet.isEmpty] using hemp
    apply erase_eq_of_empty _ i v
    cases htr : s.tree with
    | none => exact Or.inl rfl
    | some t =>
      have h4 := ((wf_iff s).mp hwf).2 t htr
      have hc : t.count = 0 := by rw [← h4.2.2.2]; exact hsz
      right
      rw [(count_eq_zero_iff t).mp hc]
  · intro root i dl v dr htr hsub
    have hval := erase_valid_spec hwf htr hsub
    refine ⟨hval.2.2.2.1, ?_, ?_⟩
    · intro y
      rw [hval.2.2.2.1]
      have hnd : s.toList.Nodup := by
        rw [toList_eq_getD]
        exact toList_nodup_of_bst (wf_bundle hwf).1
      rw [hnd.mem_erase_iff]
      tauto
    · have h1 := hval.2.1
      have h2 := hval.2.2.2.2.1
      omega
  · intro i li rid ll lr rl rr v lv rv c hbst hnd
    obtain ⟨hl, hr, hbl, hbr⟩ := hbst
    refine ⟨?_, minFrom_head rid rl rv rr, ?_⟩
    · rw [erase_impl_hit_both]
    · obtain ⟨rr2, hmin⟩ := minFrom_isSubtree rid rl rv rr
      exact erase_impl_toList _ hbr hnd _ _ _ _ c hmin

/-- C4: Find semantics.  On a well-formed handle, `find(x)` returns the end
cursor exactly when `x` is absent from the element sequence, and whenever it
returns a node cursor, that cursor identifies a node of the current tree that
holds `x`.  (The descent itself — left on greater, right on lesser, from the
real root — is the definition `BTree.findNode`, translated from the source;
the embedding is a pure function of the handle, matching "no mutation".) -/
theorem find_spec (s : PSet α) (x : α) (hwf : WF s) :
    (s.find x = PSet.endCursor s ↔ x ∉ s.toList) ∧
    (∀ i, s.find x = some i →
      ∃ root dl dr, s.tree = some root ∧ IsSubtree (.node i dl x dr) root) := by
  refine ⟨PSet.find_eq_none_iff hwf x, ?_⟩
  intro i hfind
  rw [PSet.find_eq_getD] at hfind
  obtain ⟨dl, dr, hsub⟩ := findNode_some hfind
  cases htr : s.tree with
  | none =>
    rw [htr] at hfind
    simp [BTree.findNode] at hfind
  | some root =>
    rw [htr] at hsub
    exact ⟨root, dl, dr, rfl, by simpa using hsub⟩

/-- C5: BST ordering invariant.  Every handle state reachable by any sequence
of the public operations (insert, erase with a current-version cursor, clear,
swap, copy) has a tree in which, at every node, all left-subtree elements
compare less than the node's value and all right-subtree elements greater
(`BST`), and consequently the in-order traversal is strictly ascending and
duplicate-free. -/
theorem bst_invariant_reachable (s : PSet α) (h : Reachable s) :
    ∀ root, s.tree = some root →
      BST root ∧ root.toList.Sorted (· < ·) ∧ root.toList.Nodup := by
  intro root htr
  have hwf := reachable_wf h
  have h4 := ((wf_iff s).mp hwf).2 root htr
  exact ⟨h4.1, (bst_iff_sorted root).mp h4.1, toList_nodup_of_bst h4.1⟩

/-- C6: Cursor stepping.  For a node of a BST version, `bNode::next` returns
the minimum node of its right subtree when that subtree is nonempty, and
otherwise the candidate recorded by the re-descent (the anchor, i.e. the end
cursor, when none was recorded); in all cases the result is the cursor of the
node holding the least element greater than the node's value, or the end
cursor if no such element exists.  `bNode::prev` is symmetric. -/
theorem cursor_step_spec (root : BTree α) (i : ℕ) (l : BTree α) (v : α) (r : BTree α)
    (hbst : BST root) (hsub : IsSubtree (.node i l v r) root) :
    (bNodeNext v r root = match succVal root v with
      | none => none
      | some y => root.findNode y) ∧
    (∀ rid rl rv rr, r = .node rid rl rv rr →
      bNodeNext v r root = some (minFrom rid rl rv).1) ∧
    (bNodePrev v l root = match predVal root v with
      | none => none
      | some y => root.findNode y) ∧
    (∀ lid ll lv lr, l = .node lid ll lv lr →
      bNodePrev v l root = some (maxFrom lid lv lr).1) := by
  refine ⟨bNodeNext_spec hbst hsub, ?_, bNodePrev_spec hbst hsub, ?_⟩
  · rintro rid rl rv rr rfl
    rfl
  · rintro lid ll lv lr rfl
    rfl

/-- C7: Boundary behaviour.  On a well-formed handle, `begin() = end()` exactly
when `empty()` holds; on a nonempty handle, decrementing the end cursor yields
the cursor of the maximum-valued node (a node with empty right subtree whose
value is the last of the ascending traversal), and incrementing that maximum
node's cursor yields the end cursor. -/
theorem boundary_spec (s : PSet α) (hwf : WF s) :
    (s.begin = PSet.endCursor s ↔ s.isEmpty = true) ∧
    (∀ id l v r, s.tree = some (.node id l v r) →
      s.predOfEnd = some (maxFrom id v r).1 ∧
      (∃ ml, IsSubtree (.node (maxFrom id v r).1 ml (maxFrom id v r).2 .leaf)
        (.node id l v r)) ∧
      (BTree.node id l v r).toList.getLast? = some (maxFrom id v r).2 ∧
      bNodeNext (maxFrom id v r).2 .leaf (.node id l v r) = none) := by
  constructor
  · show s.begin = none ↔ _
    rw [begin_eq_none_iff]
    constructor
    · rintro (h | h)
      · have h0 := ((wf_iff s).mp hwf).1 h
        simp [PSet.isEmpty, h0]
      · have h4 := ((wf_iff s).mp hwf).2 _ h
        have h0 : s.size = 0 := by rw [h4.2.2.2]; rfl
        simp [PSet.isEmpty, h0]
    · intro h
      have hsz : s.size = 0 := by simpa [PSet.isEmpty] using h
      cases htr : s.tree with
      | none => exact Or.inl rfl
      | some t =>
        have h4 := ((wf_iff s).mp hwf).2 t htr
        have hc : t.count = 0 := by rw [← h4.2.2.2]; exact hsz
        right
        rw [(count_eq_zero_iff t).mp hc]
  · intro id l v r htr
    have h4 := ((wf_iff s).mp hwf).2 _ htr
    have hbst := h4.1
    obtain ⟨ml, hmax⟩ := maxFrom_isSubtree id l v r
    have hlast := maxFrom_getLast id l v r
    refine ⟨?_, ⟨ml, hmax⟩, hlast, ?_⟩
    · obtain ⟨tr, sz, c⟩ := s
      have htr' : tr = some (.node id l v r) := htr
      subst htr'
      rfl
    · rw [bNodeNext_spec hbst hmax]
      have hnone : succVal (.node id l v r) (maxFrom id v r).2 = none := by
        unfold succVal
        rw [List.head?_eq_none_iff, List.filter_eq_nil_iff]
        intro y hy
        simpa using sorted_getLast?_max _ ((bst_iff_sorted _).mp hbst) _ hlast y hy
      rw [hnone]

/-- C8: Structural sharing.  Running the path-copying insertion on a tree whose
node addresses all lie below the allocation counter `c`: a node of the result
carries the new node's address among its descendants exactly when it is
freshly allocated (address `≥ c`), i.e. the fresh nodes are exactly the
root-to-new-node path; every other node of the result is the identical (same
address, same structure) subtree of the pre-insert tree; and at most
`height + 1` fresh node addresses are consumed, so allocation is O(height)
(the fresh anchor is allocated separately by `insert`). -/
theorem structural_sharing_spec (t : BTree α) (x : α) (c : ℕ)
    (hb : ∀ j ∈ t.ids, j < c) :
    (∀ (j : ℕ) (l2 : BTree α) (v2 : α) (r2 : BTree α),
      IsSubtree (.node j l2 v2 r2) (insert_impl t x c).1 →
      ((insert_impl t x c).2.1 ∈ (BTree.node j l2 v2 r2).ids ↔ c ≤ j)) ∧
    (∀ (j : ℕ) (l2 : BTree α) (v2 : α) (r2 : BTree α),
      IsSubtree (.node j l2 v2 r2) (insert_impl t x c).1 → j < c →
      IsSubtree (.node j l2 v2 r2) t) ∧
    (insert_impl t x c).2.2 ≤ c + t.height + 1 := by
  have hshare := insert_impl_share t x c hb
  refine ⟨?_, fun j l2 v2 r2 hsub hj => (hshare j l2 v2 r2 hsub).2 hj,
    insert_impl_ctr_le t x c⟩
  intro j l2 v2 r2 hsub
  constructor
  · intro hres
    rcases lt_or_le j c with hcj | hcj
    · have hsubt := (hshare j l2 v2 r2 hsub).2 hcj
      exact absurd (hb _ (isSubtree_ids_subset hsubt hres))
        (not_lt.mpr (insert_impl_res_lb t x c))
    · exact hcj
  · exact fun hcj => (hshare j l2 v2 r2 hsub).1 hcj

/-- C9: Size consistency.  In every reachable handle state the stored
cardinality equals the number of value-bearing nodes under the anchor, it is
zero exactly when there is no anchor or the anchor's left child is empty, and
`empty()` (which tests the counter) agrees with the traversal being empty. -/
theorem size_invariant_reachable (s : PSet α) (h : Reachable s) :
    s.size = (s.tree.getD .leaf).count ∧
    (s.size = 0 ↔ (s.tree = none ∨ s.tree = some .leaf)) ∧
    (s.isEmpty = true ↔ s.toList = []) := by
  have hwf := reachable_wf h
  have hb := wf_bundle hwf
  refine ⟨hb.2.2.2, ?_, ?_⟩
  · constructor
    · intro h0
      cases htr : s.tree with
      | none => exact Or.inl rfl
      | some t =>
        have h4 := ((wf_iff s).mp hwf).2 t htr
        have hc : t.count = 0 := by rw [← h4.2.2.2]; exact h0
        right
        rw [(count_eq_zero_iff t).mp hc]
    · rintro (htr | htr)
      · exact ((wf_iff s).mp hwf).1 htr
      · have h4 := ((wf_iff s).mp hwf).2 _ htr
        rw [h4.2.2.2]
        rfl
  · constructor
    · intro hemp
      have hsz : s.size = 0 := by simpa [PSet.isEmpty] using hemp
      rw [toList_eq_getD]
      have hc : (s.tree.getD .leaf).count = 0 := by rw [← hb.2.2.2]; exact hsz
      rw [(count_eq_zero_iff _).mp hc]
      rfl
    · intro hto
      have hlen : (s.tree.getD .leaf).toList.length = 0 := by
        rw [← toList_eq_getD, hto]
        rfl
      have h0 : s.size = 0 := by rw [hb.2.2.2, count_eq_length_toList, hlen]
      simp [PSet.isEmpty, h0]

/-- C10: Loop termination.  The descent loop of `find` returns within
`height`-many iterations with the same result as the total descent function,
and for a finite BST in which the stepped value is present, the re-descent
loops of `next` and `prev` likewise return within `height`-many iterations,
agreeing with the total descent functions. -/
theorem descent_loops_terminate :
    (∀ (t : BTree α) (x : α) (fuel : ℕ), t.height < fuel →
      findFuel x fuel t = some (t.findNode x)) ∧
    (∀ (root : BTree α) (x : α) (acc : Option ℕ) (fuel : ℕ),
      BST root → x ∈ root.toList → root.height < fuel →
      nextDescFuel x fuel root acc = some (nextDesc x root acc)) ∧
    (∀ (root : BTree α) (x : α) (acc : Option ℕ) (fuel : ℕ),
      BST root → x ∈ root.toList → root.height < fuel →
      prevDescFuel x fuel root acc = some (prevDesc x root acc)) :=
  ⟨fun t x fuel h => findFuel_spec t x fuel h,
    fun root x acc fuel _ _ h => nextDescFuel_spec x root acc fuel h,
    fun root x acc fuel _ _ h => prevDescFuel_spec x root acc fuel h⟩

/-! Concrete witnesses: each claim theorem instantiated on a small handle over
`Int`, with all hypotheses discharged by evaluation. -/

theorem persistence_spec_witness :
    (PSet.copy (((PSet.init Int).insert 5).1.insert 3).1).find 8 =
      PSet.endCursor (PSet.copy (((PSet.init Int).insert 5).1.insert 3).1) ∧
    ((((PSet.init Int).insert 5).1.insert 3).1.insert 8).1.toList =
      insList 8 (((PSet.init Int).insert 5).1.insert 3).1.toList :=
  ⟨(persistence_spec (((PSet.init Int).insert 5).1.insert 3).1 8 (by decide) (by decide)).1,
    (persistence_spec (((PSet.init Int).insert 5).1.insert 3).1 8 (by decide)
      (by decide)).2.2.1⟩

theorem insert_op_spec_witness :
    ((((PSet.init Int).insert 5).1).insert 5).2.2 = false :=
  (insert_op_spec (PSet.init Int) 5 (by decide)).2.2.2.1

theorem erase_op_spec_witness :
    ((((PSet.init Int).insert 5).1.insert 3).1.erase 1 3).toList =
      ((((PSet.init Int).insert 5).1.insert 3).1.toList).erase 3 :=
  ((erase_op_spec (((PSet.init Int).insert 5).1.insert 3).1 (by decide)).2.1
    (.node 2 (.node 1 .leaf 3 .leaf) 5 .leaf) 1 .leaf 3 .leaf (by decide) (by decide)).1

theorem find_spec_witness :
    (((PSet.init Int).insert 5).1.insert 3).1.find 7 =
      PSet.endCursor (((PSet.init Int).insert 5).1.insert 3).1 :=
  (find_spec (((PSet.init Int).insert 5).1.insert 3).1 7 (by decide)).1.mpr (by decide)

theorem bst_invariant_reachable_witness :
    BST (BTree.node 2 (.node 1 .leaf (3 : Int) .leaf) 5 .leaf) :=
  (bst_invariant_reachable _ (Reachable.ins 3 (Reachable.ins 5 Reachable.init))
    (.node 2 (.node 1 .leaf 3 .leaf) 5 .leaf) (by decide)).1

theorem cursor_step_spec_witness :
    bNodeNext (3 : Int) .leaf (.node 2 (.node 1 .leaf 3 .leaf) 5 .leaf) =
      match succVal (.node 2 (.node 1 .leaf (3 : Int) .leaf) 5 .leaf) 3 with
      | none => none
      | some y => (BTree.node 2 (.node 1 .leaf (3 : Int) .leaf) 5 .leaf).findNode y :=
  (cursor_step_spec (.node 2 (.node 1 .leaf 3 .leaf) 5 .leaf) 1 .leaf 3 .leaf
    (by decide) (by decide)).1

theorem boundary_spec_witness :
    ((((PSet.init Int).insert 5).1.insert 3).1.begin =
      PSet.endCursor (((PSet.init Int).insert 5).1.insert 3).1 ↔
      (((PSet.init Int).insert 5).1.insert 3).1.isEmpty = true) :=
  (boundary_spec (((PSet.init Int).insert 5).1.insert 3).1 (by decide)).1

theorem structural_sharing_spec_witness :
    (insert_impl (BTree.node 0 .leaf (5 : Int) .leaf) 3 1).2.2 ≤
      1 + (BTree.node 0 .leaf (5 : Int) .leaf).height + 1 :=
  (structural_sharing_spec (BTree.node 0 .leaf (5 : Int) .leaf) 3 1 (by decide)).2.2

theorem size_invariant_reachable_witness :
    (((PSet.init Int).insert 5).1.insert 3).1.size =
      ((((PSet.init Int).insert 5).1.insert 3).1.tree.getD .leaf).count :=
  (size_invariant_reachable _ (Reachable.ins 3 (Reachable.ins 5 Reachable.init))).1

theorem descent_loops_terminate_witness :
    findFuel (3 : Int) 2 (.node 0 .leaf 5 .leaf) =
      some ((BTree.node 0 .leaf (5 : Int) .leaf).findNode 3) :=
  descent_loops_terminate.1 (.node 0 .leaf 5 .leaf) 3 2 (by decide)

end PersistentSet
